import Mathlib

/-!
# Verification of the offline-aware API access layer and quiz question engine

Shallow embedding, in Lean 4, of the core subsystems of the Moodle Windows
desktop client:

* `OfflineCacheService` (`offline-cache.service.ts`): deterministic cache keys,
  TTL-aware `get`, `getStale`, `put` with move-to-tail index update and LRU
  eviction from the front of the index.
* `MoodleApiService` (`moodle-api.service.ts`): the `call` state machine
  (offline/stale path, fresh-cache path, network path with write-through and
  stale fallback), plus the `getFileUrl` and `rewritePluginfileUrls`
  URL transforms.
* `QuizQuestionEngine` (quiz question engine): the tap-to-select selection
  state of the three drag-and-drop layouts, and the `ddMarkerRedraw`
  reconciliation of marker instances against the hidden coordinate field.

JavaScript strings are modelled as Lean `String` / `List Char`, numbers as
`Int`/`Nat` (coordinates and image proportions as `Rat`, since the claims
under study are exact-arithmetic statements), fallible operations return
`Except`/`Option`.  `Promise`-based code is single-threaded in the source
(one event loop), so each `async` method is embedded as a pure state-passing
function.
-/

set_option maxHeartbeats 1000000
set_option maxRecDepth 10000

/-! ## 1. JSON values and `JSON.stringify` with a replacer array

`OfflineCacheService.buildKey` computes
`JSON.stringify(params, Object.keys(params).sort())`.  Per ECMA-262, when the
replacer is an array of property names, objects (at every nesting level) are
serialized by iterating that property list, skipping names the object does
not have; arrays ignore the property list and serialize every element in
index order. -/

/-- A JSON-representable JavaScript value (the values that can appear in a
`Record<string, unknown>` of WS parameters). Object fields are kept in
insertion order, as in a JS object. -/
inductive JVal where
  | jnull : JVal
  | jbool : Bool → JVal
  | jnum : Int → JVal
  | jstr : String → JVal
  | jarr : List JVal → JVal
  | jobj : List (String × JVal) → JVal
deriving Repr

/-- JSON string escaping (ECMA-262 `QuoteJSONString`, for the characters the
app can produce: quote, backslash and ASCII control characters). -/
def jsonEscapeChar (c : Char) : String :=
  if c = '"' then "\\\""
  else if c = '\\' then "\\\\"
  else if c = '\n' then "\\n"
  else if c = '\r' then "\\r"
  else if c = '\t' then "\\t"
  else String.singleton c

def jsonQuote (s : String) : String :=
  "\"" ++ String.join (s.toList.map jsonEscapeChar) ++ "\""

/-- Comma-join a list of already-serialized fragments. -/
def joinComma : List String → String
  | [] => ""
  | [x] => x
  | x :: xs => x ++ "," ++ joinComma xs

mutual

/-- `JSON.stringify(v, plist)` where `plist` is the replacer array: the body
of `SerializeJSONProperty`.  Object members are emitted by iterating `plist`
(in list order) and looking the name up in the object. -/
def serVal (plist : List String) : JVal → String
  | .jnull => "null"
  | .jbool b => if b then "true" else "false"
  | .jnum n => toString n
  | .jstr s => jsonQuote s
  | .jarr xs => "[" ++ joinComma (serArrElems plist xs) ++ "]"
  | .jobj fs =>
      "\x7b" ++
        joinComma (plist.filterMap (fun k =>
          match (serFields plist fs).lookup k with
          | some sv => some (jsonQuote k ++ ":" ++ sv)
          | none => none)) ++ "\x7d"
termination_by structural v => v

/-- Serialize every array element (`SerializeJSONArray`). -/
def serArrElems (plist : List String) : List JVal → List String
  | [] => []
  | v :: vs => serVal plist v :: serArrElems plist vs
termination_by structural vs => vs

/-- Serialize every field value of an object, keeping the field name. -/
def serFields (plist : List String) : List (String × JVal) → List (String × String)
  | [] => []
  | (k, v) :: fs => (k, serVal plist v) :: serFields plist fs
termination_by structural fs => fs

end

/-- Lexicographic `≤` on character code sequences: the comparison used by
JavaScript's default `Array.prototype.sort` on strings. -/
def strLeList : List Char → List Char → Bool
  | [], _ => true
  | _ :: _, [] => false
  | a :: as, b :: bs =>
      if a.toNat < b.toNat then true
      else if b.toNat < a.toNat then false
      else strLeList as bs

def strLe (a b : String) : Bool := strLeList a.toList b.toList

/-- Stable insertion of a key into a sorted key list. -/
def insertKey (k : String) : List String → List String
  | [] => [k]
  | x :: xs => if strLe k x then k :: x :: xs else x :: insertKey k xs

/-- `keys.sort()` (insertion sort — JS guarantees only the sorted result,
which is unique because `strLe` is a total order). -/
def sortKeys : List String → List String
  | [] => []
  | k :: ks => insertKey k (sortKeys ks)

/-- `Object.keys(params).sort()`: the object's own keys in insertion order,
sorted lexicographically. -/
def sortedKeys (params : List (String × JVal)) : List String :=
  sortKeys (params.map Prod.fst)

/-- `JSON.stringify(params, Object.keys(params).sort())`. -/
def stringifyParams (params : List (String × JVal)) : String :=
  serVal (sortedKeys params) (.jobj params)

/-- `OfflineCacheService.buildKey`:
`` `${CACHE_PREFIX}${wsFunction}::${paramStr}` `` with
`CACHE_PREFIX = 'offline_cache::'`. -/
def buildKey (wsFunction : String) (params : List (String × JVal)) : String :=
  "offline_cache::" ++ wsFunction ++ "::" ++ stringifyParams params

example :
    buildKey "f" [("b", .jnum 2), ("a", .jnum 1)] =
      "offline_cache::f::\x7b\"a\":1,\"b\":2\x7d" := by decide

/-! ### Order properties of `strLe` and permutation-invariance of the key sort -/

theorem strLeList_total (a b : List Char) : strLeList a b = true ∨ strLeList b a = true := by
  induction a generalizing b with
  | nil => left; rfl
  | cons x xs ih =>
    cases b with
    | nil => right; rfl
    | cons y ys =>
      by_cases h1 : x.toNat < y.toNat
      · left; simp [strLeList, h1]
      · by_cases h2 : y.toNat < x.toNat
        · right; simp [strLeList, h2]
        · rcases ih ys with h | h
          · left; simp [strLeList, h1, h2, h]
          · right; simp [strLeList, h1, h2, h]

theorem strLeList_head_le {a b : Char} {as bs : List Char}
    (h : strLeList (a :: as) (b :: bs) = true) : a.toNat ≤ b.toNat := by
  by_cases h1 : a.toNat < b.toNat
  · omega
  · by_cases h2 : b.toNat < a.toNat
    · simp [strLeList, h1, h2] at h
    · omega

theorem strLeList_tail {a b : Char} {as bs : List Char} (hab : a.toNat = b.toNat)
    (h : strLeList (a :: as) (b :: bs) = true) : strLeList as bs = true := by
  have h1 : ¬ a.toNat < b.toNat := by omega
  have h2 : ¬ b.toNat < a.toNat := by omega
  simpa [strLeList, h1, h2] using h

theorem strLeList_antisymm {a b : List Char} (h1 : strLeList a b = true)
    (h2 : strLeList b a = true) : a = b := by
  induction a generalizing b with
  | nil =>
    cases b with
    | nil => rfl
    | cons y ys => simp [strLeList] at h2
  | cons x xs ih =>
    cases b with
    | nil => simp [strLeList] at h1
    | cons y ys =>
      have hxy := strLeList_head_le h1
      have hyx := strLeList_head_le h2
      have hn : x.toNat = y.toNat := by omega
      have hx : x = y := Char.eq_of_val_eq (UInt32.toNat.inj hn)
      subst hx
      rw [ih (strLeList_tail rfl h1) (strLeList_tail rfl h2)]

theorem strLeList_trans {a b c : List Char} (h1 : strLeList a b = true)
    (h2 : strLeList b c = true) : strLeList a c = true := by
  induction a generalizing b c with
  | nil => rfl
  | cons x xs ih =>
    cases b with
    | nil => simp [strLeList] at h1
    | cons y ys =>
      cases c with
      | nil => simp [strLeList] at h2
      | cons z zs =>
        have hxy := strLeList_head_le h1
        have hyz := strLeList_head_le h2
        by_cases hxz : x.toNat < z.toNat
        · simp [strLeList, hxz]
        · have hx_eq : x.toNat = y.toNat := by omega
          have hy_eq : y.toNat = z.toNat := by omega
          have h1' := strLeList_tail hx_eq h1
          have h2' := strLeList_tail hy_eq h2
          have h2x : ¬ z.toNat < x.toNat := by omega
          simp [strLeList, hxz, h2x]
          exact ih h1' h2'

theorem strLe_total (a b : String) : strLe a b = true ∨ strLe b a = true :=
  strLeList_total _ _

theorem strLe_antisymm {a b : String} (h1 : strLe a b = true) (h2 : strLe b a = true) :
    a = b := by
  have := strLeList_antisymm h1 h2
  exact String.ext (by simpa [String.toList] using this)

theorem strLe_trans {a b c : String} (h1 : strLe a b = true) (h2 : strLe b c = true) :
    strLe a c = true :=
  strLeList_trans h1 h2

theorem insertKey_comm_of_lt (a b : String) (t : List String)
    (hab : strLe a b = true) (hba : ¬ strLe b a = true) :
    insertKey a (insertKey b t) = insertKey b (insertKey a t) := by
  induction t with
  | nil => simp [insertKey, hab, hba]
  | cons x xs ih =>
    by_cases hax : strLe a x = true
    · by_cases hbx : strLe b x = true
      · simp [insertKey, hax, hbx, hab, hba]
      · simp [insertKey, hax, hbx, hab, hba]
    · have hbx : ¬ strLe b x = true := fun hb => hax (strLe_trans hab hb)
      simp [insertKey, hax, hbx, ih]

theorem insertKey_comm (a b : String) (t : List String) :
    insertKey a (insertKey b t) = insertKey b (insertKey a t) := by
  by_cases hab : strLe a b = true
  · by_cases hba : strLe b a = true
    · rw [strLe_antisymm hab hba]
    · exact insertKey_comm_of_lt a b t hab hba
  · rcases strLe_total a b with h | h
    · exact absurd h hab
    · exact (insertKey_comm_of_lt b a t h hab).symm

theorem sortKeys_perm_eq {l l' : List String} (h : l.Perm l') :
    sortKeys l = sortKeys l' := by
  induction h with
  | nil => rfl
  | cons x _ ih => simp [sortKeys, ih]
  | swap x y l => simp [sortKeys, insertKey_comm]
  | trans _ _ ih1 ih2 => rw [ih1, ih2]

/-! ### Lookup transfer under permutation, for association lists with unique keys -/

theorem mem_of_lookup_eq_some {α : Type} {l : List (String × α)} {k : String} {v : α}
    (h : l.lookup k = some v) : (k, v) ∈ l := by
  induction l with
  | nil => simp [List.lookup] at h
  | cons p t ih =>
    simp only [List.lookup] at h
    cases hbe : k == p.1 with
    | true =>
      rw [hbe] at h
      simp only [Option.some.injEq] at h
      have hk : k = p.1 := eq_of_beq hbe
      subst hk
      subst h
      exact List.mem_cons_self _ _
    | false =>
      rw [hbe] at h
      exact List.mem_cons_of_mem _ (ih h)

theorem lookup_eq_some_of_mem {α : Type} {l : List (String × α)} {k : String} {v : α}
    (nd : (l.map Prod.fst).Nodup) (hm : (k, v) ∈ l) : l.lookup k = some v := by
  induction l with
  | nil => simp at hm
  | cons p t ih =>
    rcases List.mem_cons.mp hm with h | h
    · subst h
      simp [List.lookup]
    · simp only [List.lookup]
      cases hbe : k == p.1 with
      | true =>
        exfalso
        have hk : k = p.1 := eq_of_beq hbe
        subst hk
        simp only [List.map_cons, List.nodup_cons, List.mem_map] at nd
        exact nd.1 ⟨(p.1, v), h, rfl⟩
      | false =>
        exact ih (by simp only [List.map_cons, List.nodup_cons] at nd; exact nd.2) h

theorem lookup_eq_none_iff {α : Type} {l : List (String × α)} {k : String} :
    l.lookup k = none ↔ k ∉ l.map Prod.fst := by
  induction l with
  | nil => simp [List.lookup]
  | cons p t ih =>
    simp only [List.lookup, List.map_cons, List.mem_cons]
    cases hbe : k == p.1 with
    | true =>
      have hk : k = p.1 := eq_of_beq hbe
      simp [hk]
    | false =>
      have hk : ¬ k = p.1 := ne_of_beq_false hbe
      simp [ih, hk]

theorem lookup_perm_eq {α : Type} {l l' : List (String × α)} (h : l.Perm l')
    (nd : (l.map Prod.fst).Nodup) (k : String) : l.lookup k = l'.lookup k := by
  have nd' : (l'.map Prod.fst).Nodup := ((h.map Prod.fst).nodup_iff).mp nd
  cases hv : l.lookup k with
  | some v =>
    exact (lookup_eq_some_of_mem nd' (h.mem_iff.mp (mem_of_lookup_eq_some hv))).symm
  | none =>
    have : k ∉ l'.map Prod.fst := fun hc =>
      (lookup_eq_none_iff.mp hv) (((h.map Prod.fst).mem_iff).mpr hc)
    exact (lookup_eq_none_iff.mpr this).symm

theorem serFields_eq_map (pl : List String) (fs : List (String × JVal)) :
    serFields pl fs = fs.map (fun kv => (kv.1, serVal pl kv.2)) := by
  induction fs with
  | nil => rfl
  | cons p t ih => cases p; simp [serFields, ih]

/-- **C6** — Cache key order-independence: for one function name and two
parameter objects holding identical key/value pairs in different insertion
order (including nested object/array values), `buildKey` produces the same
cache key, because the parameters are serialized against the sorted key
list. -/
theorem buildKey_order_independent (fn : String) (P1 P2 : List (String × JVal))
    (hperm : P1.Perm P2) (hnd : (P1.map Prod.fst).Nodup) :
    buildKey fn P1 = buildKey fn P2 := by
  have hpl : sortedKeys P1 = sortedKeys P2 := sortKeys_perm_eq (hperm.map Prod.fst)
  have hndF : ((serFields (sortedKeys P2) P1).map Prod.fst).Nodup := by
    rw [serFields_eq_map]
    have : ((P1.map (fun kv => (kv.1, serVal (sortedKeys P2) kv.2))).map Prod.fst) =
        P1.map Prod.fst := by
      rw [List.map_map]; rfl
    rw [this]; exact hnd
  have hF : ∀ k, (serFields (sortedKeys P2) P1).lookup k =
      (serFields (sortedKeys P2) P2).lookup k := by
    intro k
    apply lookup_perm_eq _ hndF
    rw [serFields_eq_map, serFields_eq_map]
    exact hperm.map _
  unfold buildKey stringifyParams
  rw [hpl]
  simp only [serVal]
  have harg : ((sortedKeys P2).filterMap (fun k =>
        match (serFields (sortedKeys P2) P1).lookup k with
        | some sv => some (jsonQuote k ++ ":" ++ sv)
        | none => none)) = ((sortedKeys P2).filterMap (fun k =>
        match (serFields (sortedKeys P2) P2).lookup k with
        | some sv => some (jsonQuote k ++ ":" ++ sv)
        | none => none)) := by
    congr 1
    funext k
    rw [hF k]
  rw [harg]

/-- Witness for C6 at a concrete input: the same pairs (one of them a nested
object, one a nested array) in two different insertion orders produce the
same key. -/
theorem buildKey_order_independent_witness :
    ([("options", JVal.jobj [("ids", JVal.jarr [JVal.jnum 3, JVal.jnum 4])]),
       ("courseid", JVal.jnum 7)].Perm
      [("courseid", JVal.jnum 7),
       ("options", JVal.jobj [("ids", JVal.jarr [JVal.jnum 3, JVal.jnum 4])])]) ∧
    (([("options", JVal.jobj [("ids", JVal.jarr [JVal.jnum 3, JVal.jnum 4])]),
       ("courseid", JVal.jnum 7)].map Prod.fst).Nodup) ∧
    buildKey "core_course_get_contents"
        [("options", JVal.jobj [("ids", JVal.jarr [JVal.jnum 3, JVal.jnum 4])]),
         ("courseid", JVal.jnum 7)] =
      buildKey "core_course_get_contents"
        [("courseid", JVal.jnum 7),
         ("options", JVal.jobj [("ids", JVal.jarr [JVal.jnum 3, JVal.jnum 4])])] :=
  ⟨List.Perm.swap _ _ _, by decide,
    buildKey_order_independent _ _ _ (List.Perm.swap _ _ _) (by decide)⟩

/-! ## 2. The Cache Engine (`OfflineCacheService`)

The persistent KV store (`StorageService`) is an external collaborator with
`get`/`set`/`remove`; the cache keeps entries at their cache key and a
`CacheIndex` record at the reserved key `offline_cache_index` (which never
collides with entry keys: those all begin with `offline_cache::`).  The
store is modelled with the two regions split out, plus the set of keys whose
`remove` the underlying store rejects (to model `StoreFailure` during
eviction).  `Promise.all` over the removals runs every removal; fulfilled
ones take effect and the first rejection rejects the whole operation. -/

/-- `CachedEntry` of `offline-cache.service.ts`; the payload is opaque. -/
structure CachedEntry (α : Type) where
  key : String
  data : α
  timestamp : Int
  ttl : Int
  wsFunction : String
deriving Repr, DecidableEq

/-- The `CacheIndex` record. -/
structure CacheIndex where
  keys : List String
  totalSize : Nat
  lastUpdated : Int
deriving Repr, DecidableEq

/-- One kind of store malfunction: the underlying persistence layer rejects
an operation. -/
inductive StoreErr where
  | storeFailure : StoreErr
deriving Repr, DecidableEq

/-- The persistent KV store as the cache service sees it. -/
structure Store (α : Type) where
  entries : List (String × CachedEntry α)
  index : Option CacheIndex
  failRemove : List String
deriving Repr, DecidableEq

/-- `storage.set(key, value)` on the entry region: overwrite or append. -/
def setAssoc {β : Type} : List (String × β) → String → β → List (String × β)
  | [], k, v => [(k, v)]
  | (k', v') :: t, k, v => if k' = k then (k, v) :: t else (k', v') :: setAssoc t k v

namespace OfflineCacheService

def DEFAULT_TTL_MS : Int := 60 * 60 * 1000

def MAX_CACHE_ENTRIES : Nat := 200

/-- The per-function TTL override table (`ttlMap`). -/
def ttlMs (wsFunction : String) : Int :=
  if wsFunction = "core_enrol_get_users_courses" then 30 * 60 * 1000
  else if wsFunction = "core_course_get_contents" then 30 * 60 * 1000
  else if wsFunction = "core_webservice_get_site_info" then 24 * 60 * 60 * 1000
  else if wsFunction = "gradereport_overview_get_course_grades" then 15 * 60 * 1000
  else if wsFunction = "core_calendar_get_calendar_monthly_view" then 15 * 60 * 1000
  else if wsFunction = "message_popup_get_popup_notifications" then 5 * 60 * 1000
  else if wsFunction = "core_message_get_conversations" then 5 * 60 * 1000
  else if wsFunction = "core_user_get_users_by_field" then 60 * 60 * 1000
  else if wsFunction = "core_files_get_files" then 30 * 60 * 1000
  else if wsFunction = "mod_forum_get_forums_by_courses" then 5 * 60 * 1000
  else if wsFunction = "mod_forum_get_forum_discussions" then 2 * 60 * 1000
  else if wsFunction = "mod_forum_get_discussion_posts" then 60 * 1000
  else if wsFunction = "mod_forum_get_forum_discussion_posts" then 60 * 1000
  else if wsFunction = "mod_quiz_get_quizzes_by_courses" then 10 * 60 * 1000
  else if wsFunction = "mod_quiz_get_quiz_access_information" then 5 * 60 * 1000
  else if wsFunction = "mod_quiz_get_user_attempts" then 60 * 1000
  else if wsFunction = "mod_quiz_get_user_quiz_attempts" then 60 * 1000
  else if wsFunction = "mod_quiz_get_user_best_grade" then 2 * 60 * 1000
  else if wsFunction = "core_comment_get_comments" then 2 * 60 * 1000
  else DEFAULT_TTL_MS

/-- `updateIndex`: read the index (default when absent), move the key to the
end of the key list, stamp `lastUpdated`, write the index back. -/
def updateIndex {α : Type} (st : Store α) (key : String) (now : Int) : Store α :=
  let index := st.index.getD ⟨[], 0, 0⟩
  let filtered := index.keys.filter (fun k => k ≠ key)
  { st with index := some ⟨filtered ++ [key], index.totalSize, now⟩ }

/-- `evictIfNeeded`: remove the oldest (front-most) excess keys, both from
the entry region (via `storage.remove`, all fired through `Promise.all`) and
from the index.  A rejected removal rejects the whole call; removals that
fulfilled before the rejection still took effect, and the mutated in-memory
index is then never written back. -/
def evictIfNeeded {α : Type} (st : Store α) (now : Int) : Except StoreErr (Store α) :=
  match st.index with
  | none => .ok st
  | some index =>
    if index.keys.length ≤ MAX_CACHE_ENTRIES then .ok st
    else
      let toRemove := index.keys.take (index.keys.length - MAX_CACHE_ENTRIES)
      let kept := index.keys.drop (index.keys.length - MAX_CACHE_ENTRIES)
      let entries' := st.entries.filter
        (fun p => ¬ (p.1 ∈ toRemove ∧ p.1 ∉ st.failRemove))
      if toRemove.any (fun k => decide (k ∈ st.failRemove)) then .error .storeFailure
      else .ok { st with
        entries := entries',
        index := some ⟨kept, index.totalSize, now⟩ }

/-- `put`: write the entry, move its key to the index tail, then run at most
one eviction pass. -/
def put {α : Type} (st : Store α) (wsFunction : String) (params : List (String × JVal))
    (data : α) (now : Int) : Except StoreErr (Store α) :=
  let key := buildKey wsFunction params
  let entry : CachedEntry α := ⟨key, data, now, ttlMs wsFunction, wsFunction⟩
  let st1 := { st with entries := setAssoc st.entries key entry }
  let st2 := updateIndex st1 key now
  evictIfNeeded st2 now

/-- `get`: the entry if present and — while online — within its TTL;
while offline any present entry is returned; `null` (`none`) otherwise. -/
def get {α : Type} (st : Store α) (online : Bool) (wsFunction : String)
    (params : List (String × JVal)) (now : Int) : Option α :=
  let key := buildKey wsFunction params
  match st.entries.lookup key with
  | none => none
  | some entry =>
    if online then
      if now - entry.timestamp > entry.ttl then none else some entry.data
    else some entry.data

/-- `getStale`: the entry's payload regardless of TTL, `null` on a miss. -/
def getStale {α : Type} (st : Store α) (wsFunction : String)
    (params : List (String × JVal)) : Option α :=
  match st.entries.lookup (buildKey wsFunction params) with
  | none => none
  | some entry => some entry.data

end OfflineCacheService

/-- **C8** — Cache `get` offline override and totality: while offline an
existing entry's payload is returned even when its TTL has elapsed; a miss
returns the absent sentinel (`none`); while online an entry older than its
TTL also returns `none`.  `get` is a total function, so none of these
conditions can throw. -/
theorem get_offline_override_and_total {α : Type} (st : Store α) (online : Bool)
    (fn : String) (params : List (String × JVal)) (now : Int) :
    (∀ e, online = false → st.entries.lookup (buildKey fn params) = some e →
      OfflineCacheService.get st online fn params now = some e.data) ∧
    (st.entries.lookup (buildKey fn params) = none →
      OfflineCacheService.get st online fn params now = none) ∧
    (∀ e, online = true → st.entries.lookup (buildKey fn params) = some e →
      now - e.timestamp > e.ttl →
      OfflineCacheService.get st online fn params now = none) := by
  refine ⟨?_, ?_, ?_⟩
  · intro e hon hl
    subst hon
    simp [OfflineCacheService.get, hl]
  · intro hl
    simp [OfflineCacheService.get, hl]
  · intro e hon hl hexp
    subst hon
    simp [OfflineCacheService.get, hl, hexp]

/-- Witness for C8: a concrete offline store with an entry whose TTL has long
elapsed still answers with the payload; a store without the entry answers
`none`; online the same expired entry answers `none`. -/
theorem get_offline_override_and_total_witness :
    OfflineCacheService.get
      (α := Nat)
      ⟨[("offline_cache::f::\x7b\x7d", ⟨"offline_cache::f::\x7b\x7d", 42, 0, 1000, "f"⟩)],
        none, []⟩
      false "f" [] 999999999 = some 42 ∧
    OfflineCacheService.get (α := Nat) ⟨[], none, []⟩ false "f" [] 0 = none ∧
    OfflineCacheService.get
      (α := Nat)
      ⟨[("offline_cache::f::\x7b\x7d", ⟨"offline_cache::f::\x7b\x7d", 42, 0, 1000, "f"⟩)],
        none, []⟩
      true "f" [] 999999999 = none := by
  refine ⟨?_, ?_, ?_⟩
  · exact (get_offline_override_and_total _ _ _ _ _).1
      ⟨"offline_cache::f::\x7b\x7d", 42, 0, 1000, "f"⟩ rfl (by decide)
  · exact (get_offline_override_and_total _ _ _ _ _).2.1 (by decide)
  · exact (get_offline_override_and_total _ _ _ _ _).2.2
      ⟨"offline_cache::f::\x7b\x7d", 42, 0, 1000, "f"⟩ rfl (by decide) (by decide)

/-- A store whose index already holds 200 keys (`k0 … k199`), none of which
is present in the entry region (orphaned), and whose underlying store
rejects removal of `k0`. -/
def c4ErrStore : Store Nat :=
  ⟨[], some ⟨(List.range 200).map (fun i => "k" ++ toString i), 0, 0⟩, ["k0"]⟩

/-- **C4, counterexample** — a `put` into `c4ErrStore` pushes the index to
201 keys, the eviction pass tries to remove the orphaned `k0`, the store
rejects it, and `put` rejects with the `StoreFailure`: the eviction error is
surfaced to the caller of `put`, not swallowed. -/
theorem put_eviction_error_not_swallowed :
    OfflineCacheService.put c4ErrStore "f" [] 7 0 = .error StoreErr.storeFailure := by
  rfl

/-- **C4, amended** — every `put` triggers at most one eviction pass, and the
pass is a single front-of-index removal: `put` is exactly the entry write
plus the move-to-tail index update, followed by one check of the index
length; when over capacity, the single over-capacity front segment is
removed (leaving exactly `min length 200` keys), and a `StoreFailure` raised
by the underlying store while removing an evicted (possibly orphaned) entry
*propagates to the caller of `put`* — it is not swallowed. -/
theorem put_one_pass_eviction_error_propagates {α : Type} (st : Store α)
    (fn : String) (params : List (String × JVal)) (data : α) (now : Int) :
    (OfflineCacheService.put st fn params data now =
      (let key := buildKey fn params
       let idx0 := st.index.getD ⟨[], 0, 0⟩
       let ukeys := idx0.keys.filter (fun k => k ≠ key) ++ [key]
       let st2 : Store α := { st with
         entries := setAssoc st.entries key ⟨key, data, now, OfflineCacheService.ttlMs fn, fn⟩,
         index := some ⟨ukeys, idx0.totalSize, now⟩ }
       let toRemove := ukeys.take (ukeys.length - OfflineCacheService.MAX_CACHE_ENTRIES)
       if ukeys.length ≤ OfflineCacheService.MAX_CACHE_ENTRIES then .ok st2
       else if ∃ k ∈ toRemove, k ∈ st.failRemove then .error StoreErr.storeFailure
       else .ok { st2 with
         entries := st2.entries.filter (fun p => ¬ (p.1 ∈ toRemove ∧ p.1 ∉ st.failRemove)),
         index := some ⟨ukeys.drop (ukeys.length - OfflineCacheService.MAX_CACHE_ENTRIES),
           idx0.totalSize, now⟩ })) ∧
    ((((st.index.getD ⟨[], 0, 0⟩).keys.filter (fun k => k ≠ buildKey fn params) ++
        [buildKey fn params]).drop
        (((st.index.getD ⟨[], 0, 0⟩).keys.filter (fun k => k ≠ buildKey fn params) ++
          [buildKey fn params]).length - OfflineCacheService.MAX_CACHE_ENTRIES)).length =
      min (((st.index.getD ⟨[], 0, 0⟩).keys.filter (fun k => k ≠ buildKey fn params) ++
        [buildKey fn params]).length) OfflineCacheService.MAX_CACHE_ENTRIES) := by
  constructor
  · simp only [OfflineCacheService.put, OfflineCacheService.updateIndex,
      OfflineCacheService.evictIfNeeded]
    by_cases hlen : ((st.index.getD ⟨[], 0, 0⟩).keys.filter
        (fun k => k ≠ buildKey fn params) ++ [buildKey fn params]).length ≤
        OfflineCacheService.MAX_CACHE_ENTRIES
    · simp [hlen]
    · simp only [hlen, if_false]
      by_cases hfail : ∃ k ∈ (((st.index.getD ⟨[], 0, 0⟩).keys.filter
            (fun k => k ≠ buildKey fn params) ++ [buildKey fn params]).take
            ((((st.index.getD ⟨[], 0, 0⟩).keys.filter (fun k => k ≠ buildKey fn params) ++
              [buildKey fn params])).length - OfflineCacheService.MAX_CACHE_ENTRIES)),
          k ∈ st.failRemove
      · simp [hlen, hfail, List.any_eq_true]
      · simp [hlen, hfail, List.any_eq_true]
  · simp only [List.length_drop]
    omega

/-! ### LRU behaviour of sequences of `put`s (C5) -/

theorem setAssoc_of_not_mem {β : Type} (l : List (String × β)) (k : String) (v : β)
    (h : k ∉ l.map Prod.fst) : setAssoc l k v = l ++ [(k, v)] := by
  induction l with
  | nil => rfl
  | cons p t ih =>
    simp only [List.map_cons, List.mem_cons] at h
    push_neg at h
    simp only [setAssoc]
    rw [if_neg (fun he => h.1 he.symm), ih h.2]
    rfl

theorem setAssoc_map_fst_of_mem {β : Type} (l : List (String × β)) (k : String) (v : β)
    (h : k ∈ l.map Prod.fst) : (setAssoc l k v).map Prod.fst = l.map Prod.fst := by
  induction l with
  | nil => simp at h
  | cons p t ih =>
    by_cases hk : p.1 = k
    · simp [setAssoc, hk]
    · simp only [List.map_cons, List.mem_cons] at h
      rcases h with h | h
      · exact absurd h.symm hk
      · simp [setAssoc, hk, ih h]

theorem map_fst_filter_fst {β : Type} (l : List (String × β)) (q : String → Bool) :
    (l.filter (fun p => q p.1)).map Prod.fst = (l.map Prod.fst).filter q := by
  induction l with
  | nil => rfl
  | cons p t ih =>
    by_cases hq : q p.1
    · simp [List.filter_cons, hq, ih]
    · simp [List.filter_cons, hq, ih]

theorem filter_ne_of_not_mem (l : List String) (k : String) (h : k ∉ l) :
    l.filter (fun x => x ≠ k) = l := by
  induction l with
  | nil => rfl
  | cons x t ih =>
    simp only [List.mem_cons] at h
    push_neg at h
    have h1 : x ≠ k := fun he => h.1 he.symm
    simp [List.filter_cons, h1]
    exact fun a ha he => h.2 (he ▸ ha)

/-- `put` of a key not yet in the index, with room to spare: the entry is
appended and the key appended to the index tail; no eviction. -/
theorem put_fresh_ok {α : Type} (st : Store α) (l : List String) (ts : Nat) (lu : Int)
    (fn : String) (ps : List (String × JVal)) (d : α) (now : Int)
    (hidx : st.index.getD ⟨[], 0, 0⟩ = ⟨l, ts, lu⟩)
    (hfresh : buildKey fn ps ∉ l)
    (hlen : l.length + 1 ≤ OfflineCacheService.MAX_CACHE_ENTRIES) :
    OfflineCacheService.put st fn ps d now = .ok { st with
      entries := setAssoc st.entries (buildKey fn ps)
        ⟨buildKey fn ps, d, now, OfflineCacheService.ttlMs fn, fn⟩,
      index := some ⟨l ++ [buildKey fn ps], ts, now⟩ } := by
  simp only [OfflineCacheService.put, OfflineCacheService.updateIndex,
    OfflineCacheService.evictIfNeeded, hidx]
  rw [filter_ne_of_not_mem l _ hfresh]
  have hle : (l ++ [buildKey fn ps]).length ≤ OfflineCacheService.MAX_CACHE_ENTRIES := by
    simp only [List.length_append, List.length_cons, List.length_nil]
    omega
  rw [if_pos hle]

/-- `put` of a key already in the index, which is at most at capacity: the
key moves to the index tail and no eviction happens (the index cannot grow
past capacity). -/
theorem put_existing_ok {α : Type} (st : Store α) (l : List String) (ts : Nat) (lu : Int)
    (fn : String) (ps : List (String × JVal)) (d : α) (now : Int)
    (hidx : st.index.getD ⟨[], 0, 0⟩ = ⟨l, ts, lu⟩)
    (hnd : l.Nodup)
    (hmem : buildKey fn ps ∈ l)
    (hlen : l.length ≤ OfflineCacheService.MAX_CACHE_ENTRIES) :
    OfflineCacheService.put st fn ps d now = .ok { st with
      entries := setAssoc st.entries (buildKey fn ps)
        ⟨buildKey fn ps, d, now, OfflineCacheService.ttlMs fn, fn⟩,
      index := some ⟨l.filter (fun x => x ≠ buildKey fn ps) ++ [buildKey fn ps], ts, now⟩ } := by
  simp only [OfflineCacheService.put, OfflineCacheService.updateIndex,
    OfflineCacheService.evictIfNeeded, hidx]
  have hflt : (l.filter (fun x => x ≠ buildKey fn ps)).length < l.length := by
    apply List.length_filter_lt_length_iff_exists.mpr
    exact ⟨buildKey fn ps, hmem, by simp⟩
  have hle : (l.filter (fun x => x ≠ buildKey fn ps) ++ [buildKey fn ps]).length ≤
      OfflineCacheService.MAX_CACHE_ENTRIES := by
    simp only [List.length_append, List.length_cons, List.length_nil]
    omega
  rw [if_pos hle]

theorem map_fst_filter_evict {β : Type} (l : List (String × β)) (toR fR : List String) :
    (l.filter (fun p => ¬ (p.1 ∈ toR ∧ p.1 ∉ fR))).map Prod.fst =
      (l.map Prod.fst).filter (fun x => ¬ (x ∈ toR ∧ x ∉ fR)) :=
  map_fst_filter_fst l (fun x => decide (¬ (x ∈ toR ∧ x ∉ fR)))

/-- `put` of a fresh key into a store whose index is exactly at capacity,
with a store that rejects no removals: the single oldest key `k1` is evicted
from both index and entries. -/
theorem put_overflow_ok {α : Type} (st : Store α) (k1 : String) (rest : List String)
    (ts : Nat) (lu : Int) (fn : String) (ps : List (String × JVal)) (d : α) (now : Int)
    (hidx : st.index.getD ⟨[], 0, 0⟩ = ⟨k1 :: rest, ts, lu⟩)
    (hnd : (k1 :: rest).Nodup)
    (hfresh : buildKey fn ps ∉ k1 :: rest)
    (hlen : (k1 :: rest).length = OfflineCacheService.MAX_CACHE_ENTRIES)
    (hfailR : st.failRemove = [])
    (hent : st.entries.map Prod.fst = k1 :: rest) :
    ∃ entries', OfflineCacheService.put st fn ps d now =
        .ok ⟨entries', some ⟨rest ++ [buildKey fn ps], ts, now⟩, st.failRemove⟩ ∧
      entries'.map Prod.fst = rest ++ [buildKey fn ps] := by
  have hkey1 : buildKey fn ps ≠ k1 := by
    intro he; exact hfresh (he ▸ List.mem_cons_self _ _)
  have hk1rest : k1 ∉ rest := (List.nodup_cons.mp hnd).1
  refine ⟨((setAssoc st.entries (buildKey fn ps)
      ⟨buildKey fn ps, d, now, OfflineCacheService.ttlMs fn, fn⟩).filter
      (fun p => ¬ (p.1 ∈ [k1] ∧ p.1 ∉ st.failRemove))), ?_, ?_⟩
  · simp only [OfflineCacheService.put, OfflineCacheService.updateIndex,
      OfflineCacheService.evictIfNeeded, hidx]
    rw [filter_ne_of_not_mem _ _ hfresh]
    have hgt : ¬ ((k1 :: rest) ++ [buildKey fn ps]).length ≤
        OfflineCacheService.MAX_CACHE_ENTRIES := by
      simp only [List.length_append, List.length_cons, List.length_nil]
      simp only [List.length_cons] at hlen
      omega
    rw [if_neg hgt]
    have hone : ((k1 :: rest) ++ [buildKey fn ps]).length -
        OfflineCacheService.MAX_CACHE_ENTRIES = 1 := by
      simp only [List.length_append, List.length_cons, List.length_nil]
      simp only [List.length_cons] at hlen
      omega
    rw [hone]
    rw [show ((k1 :: rest) ++ [buildKey fn ps]).take 1 = [k1] from rfl]
    rw [show ((k1 :: rest) ++ [buildKey fn ps]).drop 1 = rest ++ [buildKey fn ps] from rfl]
    rw [if_neg (by simp [hfailR])]
  · rw [setAssoc_of_not_mem _ _ _ (by rw [hent]; exact hfresh)]
    rw [map_fst_filter_evict]
    rw [show ((st.entries ++ [(buildKey fn ps, (⟨buildKey fn ps, d, now,
        OfflineCacheService.ttlMs fn, fn⟩ : CachedEntry α))]).map Prod.fst) =
      k1 :: (rest ++ [buildKey fn ps]) from by simp [hent]]
    rw [List.filter_cons]
    rw [if_neg (by simp [hfailR])]
    apply List.filter_eq_self.mpr
    intro a ha
    have hne : a ≠ k1 := by
      intro he
      subst he
      rcases List.mem_append.mp ha with h | h
      · exact hk1rest h
      · exact hkey1 (List.mem_singleton.mp h).symm
    simp [hne]

/-- The cache key a `(wsFunction, params, payload)` call triple maps to. -/
def opKey {α : Type} (o : String × List (String × JVal) × α) : String :=
  buildKey o.1 o.2.1

/-- A sequence of `put`s, stopping at the first store failure. -/
def putSeq {α : Type} : Store α → List (String × List (String × JVal) × α) →
    Except StoreErr (Store α)
  | st, [] => .ok st
  | st, o :: rest =>
    match OfflineCacheService.put st o.1 o.2.1 o.2.2 0 with
    | .error e => .error e
    | .ok st' => putSeq st' rest

theorem putSeq_append {α : Type} (a b : List (String × List (String × JVal) × α))
    (st : Store α) : putSeq st (a ++ b) =
      match putSeq st a with
      | .ok st' => putSeq st' b
      | .error e => .error e := by
  induction a generalizing st with
  | nil => rfl
  | cons o t ih =>
    simp only [List.cons_append, putSeq]
    cases OfflineCacheService.put st o.1 o.2.1 o.2.2 0 with
    | error e => rfl
    | ok st' => exact ih st'

/-- Folding fresh-key `put`s while staying within capacity: all keys are
appended, in order, to both the index and the entry region. -/
theorem putSeq_fresh {α : Type} (ops : List (String × List (String × JVal) × α)) :
    ∀ (st : Store α) (l : List String) (ts : Nat) (lu : Int),
    st.index.getD ⟨[], 0, 0⟩ = ⟨l, ts, lu⟩ →
    st.entries.map Prod.fst = l →
    (l ++ ops.map opKey).Nodup →
    l.length + ops.length ≤ OfflineCacheService.MAX_CACHE_ENTRIES →
    ∃ st' lu', putSeq st ops = .ok st' ∧
      st'.index.getD ⟨[], 0, 0⟩ = ⟨l ++ ops.map opKey, ts, lu'⟩ ∧
      st'.entries.map Prod.fst = l ++ ops.map opKey ∧
      st'.failRemove = st.failRemove := by
  induction ops with
  | nil =>
    intro st l ts lu hidx hent hnd hlen
    exact ⟨st, lu, rfl, by simpa using hidx, by simpa using hent, rfl⟩
  | cons o rest ih =>
    intro st l ts lu hidx hent hnd hlen
    have hnda : l.Disjoint (opKey o :: rest.map opKey) := (List.nodup_append.mp
      (by simpa using hnd)).2.2
    have hfresh : buildKey o.1 o.2.1 ∉ l := by
      intro hmem
      exact hnda hmem (List.mem_cons_self _ _)
    have hlen1 : l.length + 1 ≤ OfflineCacheService.MAX_CACHE_ENTRIES := by
      simp only [List.length_cons] at hlen
      omega
    have hput := put_fresh_ok st l ts lu o.1 o.2.1 o.2.2 0 hidx hfresh hlen1
    simp only [putSeq, hput]
    have hent1 : (setAssoc st.entries (buildKey o.1 o.2.1)
        ⟨buildKey o.1 o.2.1, o.2.2, 0, OfflineCacheService.ttlMs o.1, o.1⟩).map Prod.fst =
        l ++ [buildKey o.1 o.2.1] := by
      rw [setAssoc_of_not_mem _ _ _ (by rw [hent]; exact hfresh)]
      simp [hent]
    have hnd1 : ((l ++ [opKey o]) ++ rest.map opKey).Nodup := by
      rw [List.append_assoc]
      simpa using hnd
    have hlen2 : (l ++ [opKey o]).length + rest.length ≤
        OfflineCacheService.MAX_CACHE_ENTRIES := by
      simp only [List.length_append, List.length_cons, List.length_nil,
        List.length_cons] at hlen ⊢
      omega
    obtain ⟨st', lu', hrun, hidx', hent', hfail'⟩ := ih
      { st with
        entries := (setAssoc st.entries (buildKey o.1 o.2.1)
          ⟨buildKey o.1 o.2.1, o.2.2, 0, OfflineCacheService.ttlMs o.1, o.1⟩),
        index := some ⟨l ++ [buildKey o.1 o.2.1], ts, 0⟩ }
      (l ++ [opKey o]) ts 0 rfl hent1 hnd1 hlen2
    refine ⟨st', lu', hrun, ?_, ?_, hfail'⟩
    · rw [hidx']
      simp [List.append_assoc, opKey]
    · rw [hent']
      simp [List.append_assoc, opKey]

/-- As `put_overflow_ok`, but with no assumption on the entry region (used
after a re-put, when entry order and index order have diverged). -/
theorem put_overflow_index_ok {α : Type} (st : Store α) (k1 : String) (rest : List String)
    (ts : Nat) (lu : Int) (fn : String) (ps : List (String × JVal)) (d : α) (now : Int)
    (hidx : st.index.getD ⟨[], 0, 0⟩ = ⟨k1 :: rest, ts, lu⟩)
    (hfresh : buildKey fn ps ∉ k1 :: rest)
    (hlen : (k1 :: rest).length = OfflineCacheService.MAX_CACHE_ENTRIES)
    (hfailR : st.failRemove = []) :
    OfflineCacheService.put st fn ps d now =
      .ok ⟨(setAssoc st.entries (buildKey fn ps)
          ⟨buildKey fn ps, d, now, OfflineCacheService.ttlMs fn, fn⟩).filter
          (fun p => ¬ (p.1 ∈ [k1] ∧ p.1 ∉ st.failRemove)),
        some ⟨rest ++ [buildKey fn ps], ts, now⟩, st.failRemove⟩ := by
  simp only [OfflineCacheService.put, OfflineCacheService.updateIndex,
    OfflineCacheService.evictIfNeeded, hidx]
  rw [filter_ne_of_not_mem _ _ hfresh]
  have hgt : ¬ ((k1 :: rest) ++ [buildKey fn ps]).length ≤
      OfflineCacheService.MAX_CACHE_ENTRIES := by
    simp only [List.length_append, List.length_cons, List.length_nil]
    simp only [List.length_cons] at hlen
    omega
  rw [if_neg hgt]
  have hone : ((k1 :: rest) ++ [buildKey fn ps]).length -
      OfflineCacheService.MAX_CACHE_ENTRIES = 1 := by
    simp only [List.length_append, List.length_cons, List.length_nil]
    simp only [List.length_cons] at hlen
    omega
  rw [hone]
  rw [show ((k1 :: rest) ++ [buildKey fn ps]).take 1 = [k1] from rfl]
  rw [show ((k1 :: rest) ++ [buildKey fn ps]).drop 1 = rest ++ [buildKey fn ps] from rfl]
  rw [if_neg (by simp [hfailR])]

theorem length_filter_ne_of_nodup (a : String) :
    ∀ l : List String, l.Nodup → a ∈ l →
      (l.filter (fun x => x ≠ a)).length = l.length - 1 := by
  intro l
  induction l with
  | nil => intro _ hmem; simp at hmem
  | cons x t ih =>
    intro hnd hmem
    rcases List.mem_cons.mp hmem with h1 | h1
    · have hnt : x ∉ t := (List.nodup_cons.mp hnd).1
      subst h1
      simp only [List.filter_cons]
      rw [if_neg (by simp)]
      rw [filter_ne_of_not_mem t a hnt]
      simp
    · have hx : x ≠ a := by
        intro he
        exact (List.nodup_cons.mp hnd).1 (he ▸ h1)
      simp only [List.filter_cons]
      rw [if_pos (by simp [hx])]
      have hih := ih (List.nodup_cons.mp hnd).2 h1
      have hpos : 1 ≤ t.length := List.length_pos.mpr (List.ne_nil_of_mem h1)
      simp only [List.length_cons, hih]
      omega

/-- **C5** — LRU bound.  First part: 201 `put`s of pairwise-distinct keys
into the empty cache leave exactly 200 entries — the index and the entry
region hold exactly the 200 most recent keys in insertion order, i.e. the
single evicted key is the first-inserted one.  Second part: re-`put`ting a
key already present moves it to the most-recently-used tail of the index
(with no eviction), so the next over-capacity `put` evicts the oldest
remaining key, which is different from the re-`put` one; the re-`put` key
survives in the index. -/
theorem lru_bound_201_and_reput_protects {α : Type} :
    (∀ ops : List (String × List (String × JVal) × α),
      ops.length = 201 →
      (ops.map opKey).Nodup →
      ∃ st' lu', putSeq (⟨[], none, []⟩ : Store α) ops = .ok st' ∧
        st'.index.getD ⟨[], 0, 0⟩ = ⟨(ops.map opKey).drop 1, 0, lu'⟩ ∧
        st'.entries.map Prod.fst = (ops.map opKey).drop 1 ∧
        st'.entries.length = OfflineCacheService.MAX_CACHE_ENTRIES) ∧
    (∀ (st : Store α) (l : List String) (ts : Nat) (lu : Int) (fnr : String)
       (psr : List (String × JVal)) (dr : α) (now1 : Int),
      st.index.getD ⟨[], 0, 0⟩ = ⟨l, ts, lu⟩ →
      l.Nodup →
      l.length = OfflineCacheService.MAX_CACHE_ENTRIES →
      st.failRemove = [] →
      buildKey fnr psr ∈ l →
      OfflineCacheService.put st fnr psr dr now1 = .ok { st with
        entries := (setAssoc st.entries (buildKey fnr psr)
          ⟨buildKey fnr psr, dr, now1, OfflineCacheService.ttlMs fnr, fnr⟩),
        index := some ⟨l.filter (fun x => x ≠ buildKey fnr psr) ++ [buildKey fnr psr],
          ts, now1⟩ } ∧
      (∀ (fnn : String) (psn : List (String × JVal)) (dn : α) (now2 : Int),
        buildKey fnn psn ∉ l → buildKey fnn psn ≠ buildKey fnr psr →
        ∃ evicted rest0 entries2,
          l.filter (fun x => x ≠ buildKey fnr psr) = evicted :: rest0 ∧
          OfflineCacheService.put { st with
              entries := (setAssoc st.entries (buildKey fnr psr)
                ⟨buildKey fnr psr, dr, now1, OfflineCacheService.ttlMs fnr, fnr⟩),
              index := some ⟨l.filter (fun x => x ≠ buildKey fnr psr) ++
                [buildKey fnr psr], ts, now1⟩ } fnn psn dn now2 =
            .ok ⟨entries2, some ⟨(rest0 ++ [buildKey fnr psr]) ++ [buildKey fnn psn],
              ts, now2⟩, st.failRemove⟩ ∧
          evicted ≠ buildKey fnr psr ∧
          buildKey fnr psr ∈ (rest0 ++ [buildKey fnr psr]) ++ [buildKey fnn psn])) := by
  constructor
  · intro ops h201 hnd
    have hsplit : ops.take 200 ++ ops.drop 200 = ops := List.take_append_drop 200 ops
    have hlend : (ops.drop 200).length = 1 := by rw [List.length_drop, h201]
    obtain ⟨o, ho⟩ := List.length_eq_one.mp hlend
    have hofull : ops.map opKey = (ops.take 200).map opKey ++ [opKey o] := by
      conv_lhs => rw [← hsplit]
      rw [List.map_append, ho]
      rfl
    have hndfull : ((ops.take 200).map opKey ++ [opKey o]).Nodup := by
      rw [← hofull]; exact hnd
    have hnd200 : ((ops.take 200).map opKey).Nodup := (List.nodup_append.mp hndfull).1
    have hfresh : opKey o ∉ (ops.take 200).map opKey := by
      intro hm
      exact (List.nodup_append.mp hndfull).2.2 hm (List.mem_singleton_self _)
    have hk200len : ((ops.take 200).map opKey).length = 200 := by
      rw [List.length_map, List.length_take]
      omega
    obtain ⟨stA, luA, hrunA, hidxA, hentA, hfailA⟩ :=
      putSeq_fresh (ops.take 200) ⟨[], none, []⟩ [] 0 0 rfl rfl
        (by simpa using hnd200)
        (by simp only [List.length_nil, List.length_take,
              OfflineCacheService.MAX_CACHE_ENTRIES]; omega)
    obtain ⟨k1, rest, hk⟩ : ∃ k1 rest, (ops.take 200).map opKey = k1 :: rest := by
      cases hc : (ops.take 200).map opKey with
      | nil => rw [hc] at hk200len; simp at hk200len
      | cons a b => exact ⟨a, b, rfl⟩
    obtain ⟨entries', hputO, hmapO⟩ :=
      put_overflow_ok stA k1 rest 0 luA o.1 o.2.1 o.2.2 0
        (by rw [hidxA, hk]; simp)
        (hk ▸ hnd200)
        (hk ▸ hfresh)
        (by rw [← hk]; exact hk200len)
        hfailA
        (by rw [hentA]; simp [hk])
    refine ⟨⟨entries', some ⟨rest ++ [buildKey o.1 o.2.1], 0, 0⟩, stA.failRemove⟩, 0, ?_, ?_, ?_, ?_⟩
    · rw [← hsplit, putSeq_append, hrunA, ho]
      simp only [putSeq, hputO]
    · rw [hofull, hk]
      simp [opKey]
    · rw [hmapO, hofull, hk]
      simp [opKey]
    · have : entries'.length = (entries'.map Prod.fst).length := (List.length_map _ _).symm
      rw [this, hmapO]
      have : rest.length = 199 := by
        rw [hk] at hk200len
        simp only [List.length_cons] at hk200len
        omega
      simp only [List.length_append, List.length_cons, List.length_nil, this]
      decide
  · intro st l ts lu fnr psr dr now1 hidx hndl hlenl hfailR hmem
    refine ⟨put_existing_ok st l ts lu fnr psr dr now1 hidx hndl hmem (le_of_eq hlenl), ?_⟩
    intro fnn psn dn now2 hnew hne
    have hfl : (l.filter (fun x => x ≠ buildKey fnr psr)).length =
        OfflineCacheService.MAX_CACHE_ENTRIES - 1 := by
      rw [length_filter_ne_of_nodup _ l hndl hmem, hlenl]
    obtain ⟨evicted, rest0, hev⟩ : ∃ e r,
        l.filter (fun x => x ≠ buildKey fnr psr) = e :: r := by
      cases hc : l.filter (fun x => x ≠ buildKey fnr psr) with
      | nil =>
        rw [hc] at hfl
        simp [OfflineCacheService.MAX_CACHE_ENTRIES] at hfl
      | cons a b => exact ⟨a, b, rfl⟩
    have hevmem : evicted ∈ l.filter (fun x => x ≠ buildKey fnr psr) := by
      rw [hev]; exact List.mem_cons_self _ _
    have hevne : evicted ≠ buildKey fnr psr := by
      have := (List.mem_filter.mp hevmem).2
      simpa using this
    have hsubl : ∀ x ∈ l.filter (fun x => x ≠ buildKey fnr psr), x ∈ l :=
      fun x hx => (List.mem_filter.mp hx).1
    have hfresh2 : buildKey fnn psn ∉ evicted :: (rest0 ++ [buildKey fnr psr]) := by
      intro hm
      rcases List.mem_cons.mp hm with h | h
      · exact hnew (hsubl _ (hev ▸ (h ▸ List.mem_cons_self evicted rest0)))
      · rcases List.mem_append.mp h with h | h
        · exact hnew (hsubl _ (by rw [hev]; exact List.mem_cons_of_mem _ h))
        · exact hne (List.mem_singleton.mp h)
    have hlen2 : (evicted :: (rest0 ++ [buildKey fnr psr])).length =
        OfflineCacheService.MAX_CACHE_ENTRIES := by
      have : rest0.length = OfflineCacheService.MAX_CACHE_ENTRIES - 2 := by
        rw [hev] at hfl
        simp only [List.length_cons] at hfl
        simp only [OfflineCacheService.MAX_CACHE_ENTRIES] at hfl ⊢
        omega
      simp only [List.length_cons, List.length_append, List.length_nil, this,
        OfflineCacheService.MAX_CACHE_ENTRIES]
    have hput2 := put_overflow_index_ok
      { st with
        entries := (setAssoc st.entries (buildKey fnr psr)
          ⟨buildKey fnr psr, dr, now1, OfflineCacheService.ttlMs fnr, fnr⟩),
        index := some ⟨l.filter (fun x => x ≠ buildKey fnr psr) ++ [buildKey fnr psr],
          ts, now1⟩ }
      evicted (rest0 ++ [buildKey fnr psr]) ts now1 fnn psn dn now2
      (by rw [hev]; rfl)
      hfresh2 hlen2 hfailR
    refine ⟨evicted, rest0,
      ((setAssoc (setAssoc st.entries (buildKey fnr psr)
          ⟨buildKey fnr psr, dr, now1, OfflineCacheService.ttlMs fnr, fnr⟩)
        (buildKey fnn psn)
          ⟨buildKey fnn psn, dn, now2, OfflineCacheService.ttlMs fnn, fnn⟩).filter
        (fun p => ¬ (p.1 ∈ [evicted] ∧ p.1 ∉ st.failRemove))),
      hev, ?_, hevne, by simp⟩
    rw [hput2]

/-- Function names of pairwise-distinct lengths, so that the derived cache
keys are pairwise distinct by a length argument (no quadratic evaluation). -/
def c5fn (i : Nat) : String := String.mk (List.replicate i 'a')

/-- 201 call triples with pairwise-distinct functions (hence keys). -/
def c5Ops : List (String × List (String × JVal) × Nat) :=
  (List.range 201).map (fun i => (c5fn i, [], 0))

theorem c5fn_length (i : Nat) : (c5fn i).length = i := by
  simp [c5fn, String.length]

theorem buildKey_nil_length (fn : String) : (buildKey fn []).length = 19 + fn.length := by
  have h1 : ("offline_cache::" : String).length = 15 := by decide
  have h2 : ("::" : String).length = 2 := by decide
  have h3 : (stringifyParams ([] : List (String × JVal))).length = 2 := by decide
  simp only [buildKey, String.length_append, h1, h2, h3]
  omega

theorem c5Ops_keys_nodup : (c5Ops.map opKey).Nodup := by
  have : c5Ops.map opKey = (List.range 201).map (fun i => buildKey (c5fn i) []) := by
    simp only [c5Ops, List.map_map]
    apply List.map_congr_left
    intro a _
    rfl
  rw [this]
  apply List.Nodup.map _ (List.nodup_range 201)
  intro i j hij
  have := congrArg String.length hij
  rw [buildKey_nil_length, buildKey_nil_length, c5fn_length, c5fn_length] at this
  omega

/-- A 200-key index whose head is the key of function `g`; the other 199
keys are runs of `k`s of pairwise-distinct positive lengths. -/
def c5Keys : List String :=
  buildKey "g" [] :: (List.range 199).map (fun i => String.mk (List.replicate (i + 1) 'k'))

def c5St : Store Nat := ⟨[], some ⟨c5Keys, 0, 0⟩, []⟩

theorem kRun_head (i : Nat) :
    (String.mk (List.replicate (i + 1) 'k')).data.head? = some 'k' := by
  simp [List.replicate_succ]

theorem gKey_not_kRun (fn : String) (hh : (buildKey fn []).data.head? = some 'o') :
    buildKey fn [] ∉ (List.range 199).map (fun i => String.mk (List.replicate (i + 1) 'k')) := by
  intro hm
  obtain ⟨i, _, hi⟩ := List.mem_map.mp hm
  have h2 : some 'o' = some 'k' := by
    rw [← hh, ← hi, kRun_head]
  simp at h2

theorem c5Keys_nodup : c5Keys.Nodup := by
  rw [c5Keys, List.nodup_cons]
  constructor
  · exact gKey_not_kRun "g" (by decide)
  · apply List.Nodup.map _ (List.nodup_range 199)
    intro i j hij
    have := congrArg String.length hij
    simp [String.length] at this
    omega

theorem c5Keys_length : c5Keys.length = OfflineCacheService.MAX_CACHE_ENTRIES := by
  simp [c5Keys, OfflineCacheService.MAX_CACHE_ENTRIES]

theorem hKey_not_in_c5Keys : buildKey "h" [] ∉ c5Keys := by
  rw [c5Keys]
  intro hm
  rcases List.mem_cons.mp hm with h | h
  · exact absurd h (by decide)
  · exact gKey_not_kRun "h" (by decide) h

/-- Witness for C5 at concrete inputs: the 201 distinct puts from the empty
store, and the re-put of `g` followed by a fresh put of `h` into a full
store. -/
theorem lru_bound_201_and_reput_protects_witness :
    (∃ st' lu', putSeq (⟨[], none, []⟩ : Store Nat) c5Ops = .ok st' ∧
        st'.index.getD ⟨[], 0, 0⟩ = ⟨(c5Ops.map opKey).drop 1, 0, lu'⟩ ∧
        st'.entries.map Prod.fst = (c5Ops.map opKey).drop 1 ∧
        st'.entries.length = OfflineCacheService.MAX_CACHE_ENTRIES) ∧
    (OfflineCacheService.put c5St "g" [] 5 0 = .ok { c5St with
        entries := (setAssoc c5St.entries (buildKey "g" [])
          ⟨buildKey "g" [], 5, 0, OfflineCacheService.ttlMs "g", "g"⟩),
        index := some ⟨c5Keys.filter (fun x => x ≠ buildKey "g" []) ++ [buildKey "g" []],
          0, 0⟩ }) ∧
    (∃ evicted rest0 entries2,
      c5Keys.filter (fun x => x ≠ buildKey "g" []) = evicted :: rest0 ∧
      OfflineCacheService.put { c5St with
          entries := (setAssoc c5St.entries (buildKey "g" [])
            ⟨buildKey "g" [], 5, 0, OfflineCacheService.ttlMs "g", "g"⟩),
          index := some ⟨c5Keys.filter (fun x => x ≠ buildKey "g" []) ++
            [buildKey "g" []], 0, 0⟩ } "h" [] 7 1 =
        .ok ⟨entries2, some ⟨(rest0 ++ [buildKey "g" []]) ++ [buildKey "h" []], 0, 1⟩,
          c5St.failRemove⟩ ∧
      evicted ≠ buildKey "g" [] ∧
      buildKey "g" [] ∈ (rest0 ++ [buildKey "g" []]) ++ [buildKey "h" []]) := by
  refine ⟨?_, ?_, ?_⟩
  · exact lru_bound_201_and_reput_protects.1 c5Ops (by simp [c5Ops]) c5Ops_keys_nodup
  · exact (lru_bound_201_and_reput_protects.2 c5St c5Keys 0 0 "g" [] 5 0 rfl
      c5Keys_nodup c5Keys_length rfl (List.mem_cons_self _ _)).1
  · exact (lru_bound_201_and_reput_protects.2 c5St c5Keys 0 0 "g" [] 5 0 rfl
      c5Keys_nodup c5Keys_length rfl (List.mem_cons_self _ _)).2 "h" [] 7 1
      hKey_not_in_c5Keys (by decide)

/-! ## 3. The API Gateway (`MoodleApiService.call`)

`call` is `async`; it is embedded as a pure function of the connectivity
flag, the store, and the outcome the network would produce for this request.
All errors are JS `Error`s in the source; they are split into constructors
here by their origin, carrying the source's message payloads, so that
"propagates unchanged" is expressible. -/

/-- The outcome of `fetch` + body parse for one request: a transport-level
failure (a rejected `fetch` or a non-ok HTTP status — both throw before the
envelope check), or a parsed JSON body with its possible error-envelope
fields.  An envelope field is modelled as present (`some`) when the JS value
is truthy. -/
inductive NetOutcome (α : Type) where
  | transportFail (msg : String) : NetOutcome α
  | body (exception : Option String) (errorcode : Option String)
      (message : Option String) (error : Option String) (payload : α) : NetOutcome α
deriving Repr, DecidableEq

inductive CallErr where
  | notConfigured : CallErr
  | offlineNoData : CallErr
  | transport (msg : String) : CallErr
  | wsError (errorcode : Option String) (msg : String) : CallErr
deriving Repr, DecidableEq

namespace MoodleApiService

structure ApiConfig where
  siteUrl : String
  token : String
deriving Repr, DecidableEq

/-- `fetchFromNetwork`: throws on transport failure; throws a
`Moodle WS Error` when the 200-response body carries an `exception` or
`errorcode` field; returns the parsed body otherwise. -/
def fetchFromNetwork {α : Type} (net : NetOutcome α) : Except CallErr α :=
  match net with
  | .transportFail msg => .error (.transport msg)
  | .body exception errorcode message error payload =>
    if exception.isSome || errorcode.isSome then
      .error (.wsError errorcode (((message).orElse (fun _ => error)).getD
        "Unknown Moodle error"))
    else .ok payload

/-- `call`: the per-call state machine.  Returns the payload together with
the store as left behind by the call (the write-through `put` is
fire-and-forget: a failing `put` does not fail the call). -/
def call {α : Type} (cfg : ApiConfig) (onLine : Bool) (st : Store α)
    (net : NetOutcome α) (now : Int) (wsFunction : String)
    (params : List (String × JVal)) (skipCache : Bool) :
    Except CallErr (α × Store α) :=
  if cfg.siteUrl = "" ∨ cfg.token = "" then .error .notConfigured
  else if onLine = false then
    match OfflineCacheService.getStale st wsFunction params with
    | some cached => .ok (cached, st)
    | none => .error .offlineNoData
  else
    match (if skipCache then none
           else OfflineCacheService.get st onLine wsFunction params now) with
    | some freshCached => .ok (freshCached, st)
    | none =>
      match fetchFromNetwork net with
      | .ok data =>
        (match OfflineCacheService.put st wsFunction params data now with
         | .ok st' => .ok (data, st')
         | .error _ => .ok (data, st))
      | .error err =>
        match OfflineCacheService.getStale st wsFunction params with
        | some stale => .ok (stale, st)
        | none => .error err

end MoodleApiService

/-- **C7** — transport-failure fallback: an online, configured call that
reaches the network (no fresh-cache hit) and fails at the transport level
returns the cached payload when any entry exists for the key — regardless of
its age — and otherwise propagates the original transport failure
unchanged. -/
theorem call_transport_failure_stale_fallback {α : Type} (cfg : MoodleApiService.ApiConfig)
    (st : Store α) (now : Int) (fn : String) (params : List (String × JVal))
    (skipCache : Bool) (msg : String)
    (hconf : ¬ (cfg.siteUrl = "" ∨ cfg.token = ""))
    (hnet : skipCache = true ∨ OfflineCacheService.get st true fn params now = none) :
    (∀ e : CachedEntry α, st.entries.lookup (buildKey fn params) = some e →
      MoodleApiService.call cfg true st (.transportFail msg) now fn params skipCache =
        .ok (e.data, st)) ∧
    (st.entries.lookup (buildKey fn params) = none →
      MoodleApiService.call cfg true st (.transportFail msg) now fn params skipCache =
        .error (.transport msg)) := by
  have hfresh : (if skipCache then none
      else OfflineCacheService.get st true fn params now) = none := by
    rcases hnet with h | h
    · simp [h]
    · simp [h]
  constructor
  · intro e hl
    simp only [MoodleApiService.call, if_neg hconf]
    rw [if_neg (by simp)]
    rw [hfresh]
    simp only [MoodleApiService.fetchFromNetwork, OfflineCacheService.getStale, hl]
  · intro hl
    simp only [MoodleApiService.call, if_neg hconf]
    rw [if_neg (by simp)]
    rw [hfresh]
    simp only [MoodleApiService.fetchFromNetwork, OfflineCacheService.getStale, hl]

/-- Witness for C7: a configured call over a store holding a long-expired
entry succeeds with that stale payload on transport failure; the same call
over an empty store fails with the original transport error. -/
theorem call_transport_failure_stale_fallback_witness :
    MoodleApiService.call (α := Nat) ⟨"https://moodle.example", "tok"⟩ true
        ⟨[("offline_cache::f::\x7b\x7d", ⟨"offline_cache::f::\x7b\x7d", 42, 0, 1000, "f"⟩)],
          none, []⟩
        (.transportFail "HTTP 503: Service Unavailable") 999999999 "f" [] false =
      .ok (42, ⟨[("offline_cache::f::\x7b\x7d",
          ⟨"offline_cache::f::\x7b\x7d", 42, 0, 1000, "f"⟩)], none, []⟩) ∧
    MoodleApiService.call (α := Nat) ⟨"https://moodle.example", "tok"⟩ true
        ⟨[], none, []⟩ (.transportFail "HTTP 503: Service Unavailable") 0 "f" [] false =
      .error (.transport "HTTP 503: Service Unavailable") := by
  constructor
  · exact (call_transport_failure_stale_fallback _ _ _ _ _ _ _
      (by simp) (Or.inr (by decide))).1
      ⟨"offline_cache::f::\x7b\x7d", 42, 0, 1000, "f"⟩ (by decide)
  · exact (call_transport_failure_stale_fallback _ _ _ _ _ _ _
      (by simp) (Or.inr (by decide))).2 (by decide)

/-- **C10** — while offline the `skipCache` bypass flag has no effect: the
offline branch runs before the flag is consulted, no network outcome is ever
inspected (the result is identical for every possible network outcome), and
for a configured call the cached payload is returned whenever any entry
exists for the key — regardless of TTL — while a miss fails with the
offline-no-data error. -/
theorem call_offline_skipCache_no_effect {α : Type} (cfg : MoodleApiService.ApiConfig)
    (st : Store α) (now now' : Int) (fn : String) (params : List (String × JVal)) :
    (∀ (net net' : NetOutcome α) (skip skip' : Bool),
      MoodleApiService.call cfg false st net now fn params skip =
        MoodleApiService.call cfg false st net' now' fn params skip') ∧
    (¬ (cfg.siteUrl = "" ∨ cfg.token = "") →
      (∀ e : CachedEntry α, st.entries.lookup (buildKey fn params) = some e →
        ∀ (net : NetOutcome α) (skip : Bool),
          MoodleApiService.call cfg false st net now fn params skip = .ok (e.data, st)) ∧
      (st.entries.lookup (buildKey fn params) = none →
        ∀ (net : NetOutcome α) (skip : Bool),
          MoodleApiService.call cfg false st net now fn params skip =
            .error .offlineNoData)) := by
  constructor
  · intro net net' skip skip'
    by_cases hconf : cfg.siteUrl = "" ∨ cfg.token = ""
    · simp [MoodleApiService.call, hconf]
    · simp [MoodleApiService.call, hconf]
  · intro hconf
    constructor
    · intro e hl net skip
      simp only [MoodleApiService.call, if_neg hconf]
      simp [OfflineCacheService.getStale, hl]
    · intro hl net skip
      simp only [MoodleApiService.call, if_neg hconf]
      simp [OfflineCacheService.getStale, hl]

/-- Witness for C10: an offline call over a store with a long-expired entry
returns it with and without the bypass flag, for different network outcomes;
over an empty store it fails with the offline-no-data error. -/
theorem call_offline_skipCache_no_effect_witness :
    MoodleApiService.call (α := Nat) ⟨"https://moodle.example", "tok"⟩ false
        ⟨[("offline_cache::f::\x7b\x7d", ⟨"offline_cache::f::\x7b\x7d", 42, 0, 1000, "f"⟩)],
          none, []⟩
        (.transportFail "boom") 999999999 "f" [] true =
      MoodleApiService.call (α := Nat) ⟨"https://moodle.example", "tok"⟩ false
        ⟨[("offline_cache::f::\x7b\x7d", ⟨"offline_cache::f::\x7b\x7d", 42, 0, 1000, "f"⟩)],
          none, []⟩
        (.body none none none none 7) 0 "f" [] false ∧
    MoodleApiService.call (α := Nat) ⟨"https://moodle.example", "tok"⟩ false
        ⟨[("offline_cache::f::\x7b\x7d", ⟨"offline_cache::f::\x7b\x7d", 42, 0, 1000, "f"⟩)],
          none, []⟩
        (.transportFail "boom") 999999999 "f" [] true =
      .ok (42, ⟨[("offline_cache::f::\x7b\x7d",
          ⟨"offline_cache::f::\x7b\x7d", 42, 0, 1000, "f"⟩)], none, []⟩) ∧
    MoodleApiService.call (α := Nat) ⟨"https://moodle.example", "tok"⟩ false
        ⟨[], none, []⟩ (.transportFail "boom") 0 "f" [] true = .error .offlineNoData := by
  refine ⟨?_, ?_, ?_⟩
  · exact (call_offline_skipCache_no_effect _ _ _ _ _ _).1 _ _ _ _
  · exact ((call_offline_skipCache_no_effect _ _ 999999999 0 _ _).2 (by simp)).1
      ⟨"offline_cache::f::\x7b\x7d", 42, 0, 1000, "f"⟩ (by decide) _ _
  · exact ((call_offline_skipCache_no_effect _ _ 0 0 _ _).2 (by simp)).2 (by decide) _ _

/-- **C1** — evaluation of the Gateway at the failing input: a configured,
online call whose cached entry has expired (so the network is consulted)
and whose transport-successful response carries an `errorcode` envelope.
`fetchFromNetwork` throws the remote application error, but `call` catches
it in the same handler as transport failures and substitutes the stale
cached payload: the call *succeeds* with `42` instead of failing, masking
the authoritative remote error (the response itself is still never written
to the cache — the store comes back unchanged). -/
theorem call_ws_error_masked_by_stale_cache :
    MoodleApiService.call (α := Nat) ⟨"https://moodle.example", "tok"⟩ true
        ⟨[("offline_cache::f::\x7b\x7d", ⟨"offline_cache::f::\x7b\x7d", 42, 0, 1000, "f"⟩)],
          none, []⟩
        (.body none (some "invalidtoken") (some "Invalid token") none 7)
        999999999 "f" [] false =
      .ok (42, ⟨[("offline_cache::f::\x7b\x7d",
          ⟨"offline_cache::f::\x7b\x7d", 42, 0, 1000, "f"⟩)], none, []⟩) := by
  rfl

/-! ## 4. Question-engine selection state (`QuizQuestionEngine`)

Each scanned question container gets one state object (`DdwtosState`,
`DdImageState`, `DdMarkerState`) pushed onto the engine's `activeStates`.
All three share the same tap-to-select shape: the drag-click handler toggles
selection, `…Select` first runs `…Deselect` — which strips the selection CSS
class (`selected` for ddwtos, `beingdragged` for the image/marker layouts)
from the drags *of that state's container only* and clears `state.selected`.
Drop-zone, background and home-area clicks either leave the selection alone
or clear it.  A state is modelled by the drags it owns, its `selected`
field, and the set of its drags currently carrying the selection class. -/

structure QState where
  drags : List Nat
  selected : Option Nat
  marked : List Nat
deriving Repr, DecidableEq

namespace QuizQuestionEngine

/-- `ddwtosDeselect` / `ddImageDeselect` / `ddMarkerDeselect`. -/
def deselect (s : QState) : QState := { s with selected := none, marked := [] }

/-- `ddwtosSelect` / `ddImageSelect` / `ddMarkerSelect`: deselect within the
container, then record and mark the clicked drag. -/
def select (s : QState) (d : Nat) : QState :=
  { deselect s with selected := some d, marked := [d] }

/-- The drag-item click handler (all three layouts): toggle. -/
def dragClick (s : QState) (d : Nat) : QState :=
  if d ∈ s.marked then deselect s else select s d

/-- A ddwtos drop-zone click: nothing without a selection; places and
deselects on a group match, otherwise leaves the selection standing. -/
def dropClickWord (s : QState) (groupMatch : Bool) : QState :=
  match s.selected with
  | none => s
  | some _ => if groupMatch then deselect s else s

/-- A ddimageortext drop-zone click (`ddImageDropClick`) or a ddmarker
background click: deselects first in every case. -/
def dropClickImg (s : QState) : QState :=
  match s.selected with
  | none => s
  | some _ => deselect s

/-- A home-area click: with a selection, deselects (returning the item if it
was placed). -/
def homeClick (s : QState) : QState :=
  match s.selected with
  | none => s
  | some _ => deselect s

end QuizQuestionEngine

/-- Replace the element at one position, if present. -/
def updateAt {β : Type} : List β → Nat → (β → β) → List β
  | [], _, _ => []
  | x :: xs, 0, f => f x :: xs
  | x :: xs, n + 1, f => x :: updateAt xs n f

/-- One click event dispatched to the engine: each handler is attached to
elements of a single container, so an event addresses one state. -/
inductive ClickEv where
  | drag (q d : Nat) : ClickEv
  | dropWord (q : Nat) (groupMatch : Bool) : ClickEv
  | dropImg (q : Nat) : ClickEv
  | home (q : Nat) : ClickEv
deriving Repr, DecidableEq

/-- The engine's `activeStates` after one click event. -/
def stepClick (e : List QState) : ClickEv → List QState
  | .drag q d => updateAt e q (fun s => QuizQuestionEngine.dragClick s d)
  | .dropWord q m => updateAt e q (fun s => QuizQuestionEngine.dropClickWord s m)
  | .dropImg q => updateAt e q QuizQuestionEngine.dropClickImg
  | .home q => updateAt e q QuizQuestionEngine.homeClick

/-- The container index a click event addresses. -/
def evIndex : ClickEv → Nat
  | .drag q _ => q
  | .dropWord q _ => q
  | .dropImg q => q
  | .home q => q

/-- Number of drags carrying the selection class across the whole engine. -/
def selectedCount (e : List QState) : Nat := (e.map (fun s => s.marked.length)).sum

/-- Per-container consistency: the selection class sits exactly on the
state's `selected` drag. -/
def SelInv (s : QState) : Prop :=
  s.marked = (match s.selected with | none => [] | some d => [d])

/-- **C3, counterexample** — two question containers in one engine instance,
both initially unselected; clicking drag 1 in container 0 and then drag 2 in
container 1 leaves *two* drags selected engine-wide, and the first
container's selection was not cleared by the second selection. -/
theorem engine_wide_single_selection_fails :
    selectedCount
        (stepClick (stepClick [⟨[1], none, []⟩, ⟨[2], none, []⟩] (.drag 0 1)) (.drag 1 2)) = 2 ∧
    (stepClick (stepClick [⟨[1], none, []⟩, ⟨[2], none, []⟩] (.drag 0 1))
        (.drag 1 2)).map QState.selected = [some 1, some 2] := by
  decide

theorem updateAt_mem {β : Type} (l : List β) (n : Nat) (f : β → β) :
    ∀ x ∈ updateAt l n f, x ∈ l ∨ ∃ y ∈ l, x = f y := by
  induction l generalizing n with
  | nil => intro x hx; simp [updateAt] at hx
  | cons a t ih =>
    intro x hx
    cases n with
    | zero =>
      rcases List.mem_cons.mp hx with h | h
      · exact Or.inr ⟨a, List.mem_cons_self _ _, h⟩
      · exact Or.inl (List.mem_cons_of_mem _ h)
    | succ m =>
      rcases List.mem_cons.mp hx with h | h
      · exact Or.inl (h ▸ List.mem_cons_self _ _)
      · rcases ih m x h with h' | ⟨y, hy, hxy⟩
        · exact Or.inl (List.mem_cons_of_mem _ h')
        · exact Or.inr ⟨y, List.mem_cons_of_mem _ hy, hxy⟩

theorem updateAt_getElem_ne {β : Type} (l : List β) (n m : Nat) (f : β → β)
    (h : m ≠ n) : (updateAt l n f)[m]? = l[m]? := by
  induction l generalizing n m with
  | nil => simp [updateAt]
  | cons a t ih =>
    cases n with
    | zero =>
      cases m with
      | zero => exact absurd rfl h
      | succ k => simp [updateAt]
    | succ nm =>
      cases m with
      | zero => simp [updateAt]
      | succ k => simpa [updateAt] using ih nm k (fun he => h (by rw [he]))

theorem updateAt_getElem_eq {β : Type} (l : List β) (n : Nat) (f : β → β) :
    (updateAt l n f)[n]? = l[n]?.map f := by
  induction l generalizing n with
  | nil => simp [updateAt]
  | cons a t ih =>
    cases n with
    | zero => simp [updateAt]
    | succ m => simpa [updateAt] using ih m

theorem selInv_dragClick (s : QState) (d : Nat) (h : SelInv s) :
    SelInv (QuizQuestionEngine.dragClick s d) := by
  unfold QuizQuestionEngine.dragClick QuizQuestionEngine.select QuizQuestionEngine.deselect
  by_cases hm : d ∈ s.marked <;> simp [hm, SelInv]

theorem selInv_dropWord (s : QState) (m : Bool) (h : SelInv s) :
    SelInv (QuizQuestionEngine.dropClickWord s m) := by
  unfold QuizQuestionEngine.dropClickWord QuizQuestionEngine.deselect
  cases hsel : s.selected with
  | none => exact h
  | some d =>
    cases m with
    | false => simpa using h
    | true => simp [SelInv]

theorem selInv_dropImg (s : QState) (h : SelInv s) :
    SelInv (QuizQuestionEngine.dropClickImg s) := by
  unfold QuizQuestionEngine.dropClickImg QuizQuestionEngine.deselect
  cases s.selected with
  | none => exact h
  | some d => simp [SelInv]

theorem selInv_homeClick (s : QState) (h : SelInv s) :
    SelInv (QuizQuestionEngine.homeClick s) := by
  unfold QuizQuestionEngine.homeClick QuizQuestionEngine.deselect
  cases s.selected with
  | none => exact h
  | some d => simp [SelInv]

/-- **C3, amended** — the single-selection invariant holds *per question
container*, not engine-wide: every click event preserves, in each state the
engine manages, that at most one drag is selected (class and `selected`
field agree on a single item); clicking an unselected drag in a container
replaces that container's previous selection with the new drag; and a click
never touches the selection of any other container, so selections in
different containers are fully independent (the engine-wide version is
refuted by `engine_wide_single_selection_fails`). -/
theorem per_container_single_selection :
    (∀ (e : List QState) (ev : ClickEv), (∀ s ∈ e, SelInv s) →
      ∀ s' ∈ stepClick e ev, SelInv s' ∧ s'.marked.length ≤ 1) ∧
    (∀ (e : List QState) (q d : Nat) (s : QState), e[q]? = some s → d ∉ s.marked →
      (stepClick e (.drag q d))[q]? =
        some { s with selected := some d, marked := [d] }) ∧
    (∀ (e : List QState) (ev : ClickEv) (q : Nat), q ≠ evIndex ev →
      (stepClick e ev)[q]? = e[q]?) := by
  refine ⟨?_, ?_, ?_⟩
  · intro e ev hinv s' hs'
    have hstep : ∀ s'' ∈ stepClick e ev, SelInv s'' := by
      intro s'' hs''
      cases ev with
      | drag q d =>
        rcases updateAt_mem _ _ _ s'' hs'' with h | ⟨y, hy, hxy⟩
        · exact hinv _ h
        · exact hxy ▸ selInv_dragClick y d (hinv _ hy)
      | dropWord q m =>
        rcases updateAt_mem _ _ _ s'' hs'' with h | ⟨y, hy, hxy⟩
        · exact hinv _ h
        · exact hxy ▸ selInv_dropWord y m (hinv _ hy)
      | dropImg q =>
        rcases updateAt_mem _ _ _ s'' hs'' with h | ⟨y, hy, hxy⟩
        · exact hinv _ h
        · exact hxy ▸ selInv_dropImg y (hinv _ hy)
      | home q =>
        rcases updateAt_mem _ _ _ s'' hs'' with h | ⟨y, hy, hxy⟩
        · exact hinv _ h
        · exact hxy ▸ selInv_homeClick y (hinv _ hy)
    refine ⟨hstep s' hs', ?_⟩
    have := hstep s' hs'
    unfold SelInv at this
    rw [this]
    cases s'.selected with
    | none => simp
    | some d => simp
  · intro e q d s hq hd
    simp only [stepClick]
    rw [updateAt_getElem_eq, hq]
    show some (QuizQuestionEngine.dragClick s d) = _
    unfold QuizQuestionEngine.dragClick QuizQuestionEngine.select QuizQuestionEngine.deselect
    rw [if_neg hd]
  · intro e ev q hq
    cases ev with
    | drag q' d => exact updateAt_getElem_ne _ _ _ _ hq
    | dropWord q' m => exact updateAt_getElem_ne _ _ _ _ hq
    | dropImg q' => exact updateAt_getElem_ne _ _ _ _ hq
    | home q' => exact updateAt_getElem_ne _ _ _ _ hq

/-- Witness for C3's amended theorem at concrete inputs. -/
theorem per_container_single_selection_witness :
    (∀ s' ∈ stepClick [(⟨[1, 2], some 1, [1]⟩ : QState)] (.drag 0 2),
      SelInv s' ∧ s'.marked.length ≤ 1) ∧
    (stepClick [(⟨[1, 2], some 1, [1]⟩ : QState)] (.drag 0 2))[0]? =
      some ⟨[1, 2], some 2, [2]⟩ ∧
    (stepClick [(⟨[1], some 1, [1]⟩ : QState), (⟨[2], none, []⟩ : QState)] (.drag 1 2))[0]? =
      some ⟨[1], some 1, [1]⟩ := by
  refine ⟨?_, ?_, ?_⟩
  · exact per_container_single_selection.1 [⟨[1, 2], some 1, [1]⟩] (.drag 0 2)
      (by intro s hs; simp at hs; subst hs; rfl)
  · exact per_container_single_selection.2.1 [⟨[1, 2], some 1, [1]⟩] 0 2
      ⟨[1, 2], some 1, [1]⟩ rfl (by decide)
  · exact per_container_single_selection.2.2 [⟨[1], some 1, [1]⟩, ⟨[2], none, []⟩]
      (.drag 1 2) 0 (by decide)

/-! ## 5. Marker redraw (`QuizQuestionEngine.ddMarkerRedraw`)

The DOM slice `ddMarkerRedraw` works on, for one ddmarker container:
the `.dragitem` marker instances (`items`, in document order), the hidden
per-choice inputs, the `.draghome`/`.marker` home elements with their
positions, the background-image offset inside `.ddarea` (`bgx`,`bgy`), the
current image proportion, and the computed margins of a marker element
(`ml`,`mt` — identical for all markers of the container, as they share one
CSS class).  Coordinates and screen positions use `Rat` as the exact model
of the source's numeric arithmetic.  `selectedChoice` is the choice number
of `state.selected`, when a marker is selected. -/

structure MarkerItem where
  itemNo : Nat
  choice : Nat
  placed : Bool
  unplaced : Bool
  unneeded : Bool
  beingdragged : Bool
  left : Rat
  top : Rat
deriving Repr, DecidableEq

structure MarkerInput where
  choice : Nat
  value : String
  infinite : Bool
  noofdrags : Option Nat
deriving Repr, DecidableEq

structure MarkerContainer where
  items : List MarkerItem
  inputs : List MarkerInput
  homes : List (Nat × (Rat × Rat))
  proportion : Rat
  bgx : Rat
  bgy : Rat
  ml : Rat
  mt : Rat
  selectedChoice : Option Nat
deriving Repr, DecidableEq

/-- `String.prototype.split(sep)` on a one-character separator: the list of
(possibly empty) chunks between separator occurrences. -/
def splitOnCharList (sep : Char) : List Char → List (List Char)
  | [] => [[]]
  | c :: cs =>
    if c = sep then [] :: splitOnCharList sep cs
    else
      match splitOnCharList sep cs with
      | [] => [[c]]
      | g :: gs => (c :: g) :: gs

def jsSplit (sep : Char) (s : String) : List String :=
  (splitOnCharList sep s.toList).map (fun l => String.mk l)

def digitsToNatAux : Nat → List Char → Option Nat
  | acc, [] => some acc
  | acc, c :: cs =>
    if 48 ≤ c.toNat ∧ c.toNat ≤ 57 then
      digitsToNatAux (acc * 10 + (c.toNat - 48)) cs
    else none

/-- `Number(part)` on a coordinate component (decimal integer strings,
optionally negative; the empty string is 0 in JS; anything else is `NaN`,
modelled as `none`). -/
def jsNumber (s : String) : Option Int :=
  match s.toList with
  | [] => some 0
  | '-' :: rest =>
    match rest with
    | [] => none
    | _ => (digitsToNatAux 0 rest).map (fun n => -(n : Int))
  | l => (digitsToNatAux 0 l).map (fun n => (n : Int))

/-- `coordStr.split(',')` destructured as `[cx, cy]`, skipped via the `isNaN`
check when either component fails to parse. -/
def parseCoord (s : String) : Option (Int × Int) :=
  match jsSplit ',' s with
  | x :: y :: _ =>
    match jsNumber x, jsNumber y with
    | some cx, some cy => some (cx, cy)
    | _, _ => none
  | _ => none

/-- Update the first list element satisfying `p` (document-order
`querySelector`), if any. -/
def updateFirst {β : Type} (p : β → Bool) (f : β → β) : List β → Option (List β)
  | [] => none
  | x :: xs => if p x then some (f x :: xs) else (updateFirst p f xs).map (x :: ·)

namespace QuizQuestionEngine

/-- The marker instance produced for slot `idx` of choice `c` at native
coordinate `(cx, cy)`: positioned at the coordinate scaled by the current
proportion plus the background offset (shifted by the marker's own margins,
so the marker's anchor point lands exactly on the scaled coordinate),
`placed`, needed, and unselected. -/
def placedMarker (st : MarkerContainer) (c idx : Nat) (cx cy : Int) : MarkerItem :=
  ⟨idx, c, true, false, false, false,
    cx * st.proportion + st.bgx - st.ml,
    cy * st.proportion + st.bgy - st.mt⟩

/-- One iteration of the coordinate loop: reuse the first
`.dragitem.choice{c}.item{idx}` that is not being dragged, else clone a new
instance from the home; either way the instance ends up `placed` at the
scaled position with `unneeded` cleared. -/
def placeMarker (st : MarkerContainer) (items : List MarkerItem) (c idx : Nat)
    (cx cy : Int) : List MarkerItem :=
  match updateFirst
      (fun it => it.choice = c ∧ it.itemNo = idx ∧ ¬ it.beingdragged = true)
      (fun _ => placedMarker st c idx cx cy) items with
  | some items' => items'
  | none => items ++ [placedMarker st c idx cx cy]

/-- The trailing home-pool logic of the input loop: when the choice is
`infinite` or fewer instances are displayed than `noofdrags`, ensure one
unplaced instance sits at the home position (reusing an unplaced one or
cloning). -/
def ensureHomeDrag (items : List MarkerItem) (c itemIdx : Nat) (homePos : Rat × Rat) :
    List MarkerItem :=
  match updateFirst
      (fun it => it.choice = c ∧ it.unplaced = true ∧ ¬ it.beingdragged = true)
      (fun it => { it with unneeded := false, left := homePos.1, top := homePos.2 }) items with
  | some items' => items'
  | none => items ++ [⟨itemIdx, c, false, true, false, false, homePos.1, homePos.2⟩]

/-- The body of the per-input loop of `ddMarkerRedraw`. -/
def processInput (st : MarkerContainer) (items : List MarkerItem) (inp : MarkerInput) :
    List MarkerItem :=
  if inp.value = "" then items
  else
    match st.homes.lookup inp.choice with
    | none => items
    | some homePos =>
      let coords := (jsSplit ';' inp.value).filter (fun s => s ≠ "")
      let step := coords.foldl (fun acc cs =>
        match parseCoord cs with
        | none => acc
        | some (cx, cy) => (placeMarker st acc.1 inp.choice acc.2 cx cy, acc.2 + 1))
        (items, 0)
      let noOfDrags := inp.noofdrags.getD 1
      let displayed := step.2 + (if st.selectedChoice = some inp.choice then 1 else 0)
      if inp.infinite ∨ displayed < noOfDrags then
        ensureHomeDrag step.1 inp.choice step.2 homePos
      else step.1

/-- `ddMarkerRedraw`: mark every existing instance unneeded and unplaced,
re-derive instances from each hidden input's coordinate list, then remove
the instances that are still unneeded (and not being dragged). -/
def ddMarkerRedraw (st : MarkerContainer) : MarkerContainer :=
  let items0 := st.items.map (fun it => { it with unneeded := true, unplaced := true })
  let items1 := st.inputs.foldl (fun acc inp => processInput st acc inp) items0
  { st with items := items1.filter (fun it => ¬ (it.unneeded = true ∧ ¬ it.beingdragged = true)) }

end QuizQuestionEngine

theorem updateFirst_some {β : Type} (p : β → Bool) (f : β → β) (l l' : List β)
    (h : updateFirst p f l = some l') :
    ∃ pre a post, l = pre ++ a :: post ∧ p a = true ∧ l' = pre ++ f a :: post := by
  induction l generalizing l' with
  | nil => simp [updateFirst] at h
  | cons x xs ih =>
    by_cases hp : p x
    · refine ⟨[], x, xs, rfl, hp, ?_⟩
      simp [updateFirst, hp] at h
      simpa using h.symm
    · have hrw : updateFirst p f (x :: xs) = (updateFirst p f xs).map (fun t => x :: t) := by
        simp [updateFirst, hp]
      rw [hrw, Option.map_eq_some'] at h
      obtain ⟨l'', hl'', heq⟩ := h
      obtain ⟨pre, a, post, hsplit, hpa, hres⟩ := ih l'' hl''
      exact ⟨x :: pre, a, post, by rw [hsplit]; rfl, hpa, by rw [← heq, hres]; rfl⟩

theorem placeMarker_mem_char (st : MarkerContainer) (items : List MarkerItem)
    (c idx : Nat) (cx cy : Int) :
    ∀ it ∈ QuizQuestionEngine.placeMarker st items c idx cx cy,
      it = QuizQuestionEngine.placedMarker st c idx cx cy ∨ it ∈ items := by
  intro it hit
  unfold QuizQuestionEngine.placeMarker at hit
  cases hu : updateFirst
      (fun it => it.choice = c ∧ it.itemNo = idx ∧ ¬ it.beingdragged = true)
      (fun _ => QuizQuestionEngine.placedMarker st c idx cx cy) items with
  | none =>
    rw [hu] at hit
    rcases List.mem_append.mp hit with h | h
    · exact Or.inr h
    · exact Or.inl (List.mem_singleton.mp h)
  | some items' =>
    rw [hu] at hit
    obtain ⟨pre, a, post, hsplit, hpa, hres⟩ := updateFirst_some _ _ _ _ hu
    rw [hres] at hit
    rcases List.mem_append.mp hit with h | h
    · exact Or.inr (hsplit ▸ List.mem_append_left _ h)
    · rcases List.mem_cons.mp h with h | h
      · exact Or.inl h
      · exact Or.inr (hsplit ▸ List.mem_append_right _ (List.mem_cons_of_mem _ h))

theorem placeMarker_new_mem (st : MarkerContainer) (items : List MarkerItem)
    (c idx : Nat) (cx cy : Int) :
    QuizQuestionEngine.placedMarker st c idx cx cy ∈
      QuizQuestionEngine.placeMarker st items c idx cx cy := by
  unfold QuizQuestionEngine.placeMarker
  cases hu : updateFirst
      (fun it => it.choice = c ∧ it.itemNo = idx ∧ ¬ it.beingdragged = true)
      (fun _ => QuizQuestionEngine.placedMarker st c idx cx cy) items with
  | none => exact List.mem_append_right _ (List.mem_singleton_self _)
  | some items' =>
    obtain ⟨pre, a, post, hsplit, hpa, hres⟩ := updateFirst_some _ _ _ _ hu
    rw [hres]
    exact List.mem_append_right _ (List.mem_cons_self _ _)

theorem placeMarker_count_new (st : MarkerContainer) (items : List MarkerItem)
    (c idx : Nat) (cx cy : Int)
    (hnot : QuizQuestionEngine.placedMarker st c idx cx cy ∉ items) :
    (QuizQuestionEngine.placeMarker st items c idx cx cy).count
      (QuizQuestionEngine.placedMarker st c idx cx cy) = 1 := by
  unfold QuizQuestionEngine.placeMarker
  cases hu : updateFirst
      (fun it => it.choice = c ∧ it.itemNo = idx ∧ ¬ it.beingdragged = true)
      (fun _ => QuizQuestionEngine.placedMarker st c idx cx cy) items with
  | none =>
    rw [List.count_append]
    rw [List.count_eq_zero_of_not_mem hnot]
    simp
  | some items' =>
    obtain ⟨pre, a, post, hsplit, hpa, hres⟩ := updateFirst_some _ _ _ _ hu
    rw [hres, List.count_append, List.count_cons]
    have hpre : (QuizQuestionEngine.placedMarker st c idx cx cy) ∉ pre :=
      fun hm => hnot (hsplit ▸ List.mem_append_left _ hm)
    have hpost : (QuizQuestionEngine.placedMarker st c idx cx cy) ∉ post :=
      fun hm => hnot (hsplit ▸ List.mem_append_right _ (List.mem_cons_of_mem _ hm))
    rw [List.count_eq_zero_of_not_mem hpre, List.count_eq_zero_of_not_mem hpost]
    simp

theorem placeMarker_count_other (st : MarkerContainer) (items : List MarkerItem)
    (c idx : Nat) (cx cy : Int) (x : MarkerItem)
    (hx1 : x ≠ QuizQuestionEngine.placedMarker st c idx cx cy)
    (hx2 : ¬ (x.choice = c ∧ x.itemNo = idx ∧ ¬ x.beingdragged = true)) :
    (QuizQuestionEngine.placeMarker st items c idx cx cy).count x = items.count x := by
  unfold QuizQuestionEngine.placeMarker
  cases hu : updateFirst
      (fun it => it.choice = c ∧ it.itemNo = idx ∧ ¬ it.beingdragged = true)
      (fun _ => QuizQuestionEngine.placedMarker st c idx cx cy) items with
  | none =>
    rw [List.count_append]
    simp [List.count_singleton', hx1]
  | some items' =>
    obtain ⟨pre, a, post, hsplit, hpa, hres⟩ := updateFirst_some _ _ _ _ hu
    have hax : a ≠ x := by
      intro he
      subst he
      simp only [decide_eq_true_eq] at hpa
      exact hx2 hpa
    rw [hres, hsplit, List.count_append, List.count_append, List.count_cons,
      List.count_cons]
    simp [Ne.symm hx1, hax]

theorem count_filter_of_pos {β : Type} [DecidableEq β] (l : List β) (p : β → Bool)
    (a : β) (h : p a = true) : (l.filter p).count a = l.count a := by
  induction l with
  | nil => rfl
  | cons x xs ih =>
    by_cases hx : p x
    · rw [List.filter_cons_of_pos hx, List.count_cons, List.count_cons, ih]
    · rw [List.filter_cons_of_neg hx, List.count_cons, ih]
      have : ¬ x = a := fun he => hx (he ▸ h)
      simp [this]

/-- **C9** — marker-drop redraw reconciliation: in a container whose single
hidden input for choice `c` holds `"10,10;50,60"` (not an unlimited choice,
no marker of that choice mid-drag, a home element present), the redraw
leaves exactly two marker instances for that choice — both `placed`, one per
coordinate, each at the coordinate scaled by the current image proportion
plus the background-image offset — with zero extra instances (every
choice-`c` instance is one of the two, each occurring exactly once) and zero
missing ones (both are present). -/
theorem marker_redraw_reconciliation (st : MarkerContainer) (inp : MarkerInput)
    (c : Nat) (homePos : Rat × Rat)
    (hinputs : st.inputs = [inp])
    (hch : inp.choice = c)
    (hval : inp.value = "10,10;50,60")
    (hinf : inp.infinite = false)
    (hnood : inp.noofdrags.getD 1 ≤ 2)
    (hsel : ¬ st.selectedChoice = some c)
    (hhome : st.homes.lookup c = some homePos)
    (hbd : ∀ it ∈ st.items, it.choice = c → it.beingdragged = false) :
    (∀ it ∈ (QuizQuestionEngine.ddMarkerRedraw st).items, it.choice = c →
      (it = QuizQuestionEngine.placedMarker st c 0 10 10 ∨
       it = QuizQuestionEngine.placedMarker st c 1 50 60)) ∧
    QuizQuestionEngine.placedMarker st c 0 10 10 ∈
      (QuizQuestionEngine.ddMarkerRedraw st).items ∧
    QuizQuestionEngine.placedMarker st c 1 50 60 ∈
      (QuizQuestionEngine.ddMarkerRedraw st).items ∧
    (QuizQuestionEngine.ddMarkerRedraw st).items.count
      (QuizQuestionEngine.placedMarker st c 0 10 10) = 1 ∧
    (QuizQuestionEngine.ddMarkerRedraw st).items.count
      (QuizQuestionEngine.placedMarker st c 1 50 60) = 1 := by
  have hm01 : QuizQuestionEngine.placedMarker st c 0 10 10 ≠
      QuizQuestionEngine.placedMarker st c 1 50 60 := by
    simp [QuizQuestionEngine.placedMarker]
  have hcoords : ((jsSplit ';' ("10,10;50,60" : String)).filter (fun s => s ≠ "")) =
      ["10,10", "50,60"] := by decide
  have hp0 : parseCoord "10,10" = some (10, 10) := by decide
  have hp1 : parseCoord "50,60" = some (50, 60) := by decide
  have hnood2 : ¬ ((2 : Nat) + 0 < inp.noofdrags.getD 1) := by omega
  have hproc : QuizQuestionEngine.processInput st
      (st.items.map (fun it => { it with unneeded := true, unplaced := true})) inp =
      QuizQuestionEngine.placeMarker st
        (QuizQuestionEngine.placeMarker st
          (st.items.map (fun it => { it with unneeded := true, unplaced := true}))
          c 0 10 10)
        c 1 50 60 := by
    unfold QuizQuestionEngine.processInput
    rw [hval, if_neg (by decide), hch, hhome]
    simp only [hcoords, List.foldl, hp0, hp1]
    rw [if_neg hsel]
    rw [if_neg (by rw [hinf]; simpa using hnood2)]
  have hred : (QuizQuestionEngine.ddMarkerRedraw st).items =
      (QuizQuestionEngine.placeMarker st
        (QuizQuestionEngine.placeMarker st
          (st.items.map (fun it => { it with unneeded := true, unplaced := true}))
          c 0 10 10)
        c 1 50 60).filter (fun it => ¬ (it.unneeded = true ∧ ¬ it.beingdragged = true)) := by
    unfold QuizQuestionEngine.ddMarkerRedraw
    rw [hinputs]
    simp only [List.foldl]
    rw [hproc]
  have h0unq : ∀ it ∈ st.items.map (fun it => { it with unneeded := true, unplaced := true}),
      it.unneeded = true := by
    intro it hit
    obtain ⟨y, _, rfl⟩ := List.mem_map.mp hit
    rfl
  have h0bd : ∀ it ∈ st.items.map (fun it => { it with unneeded := true, unplaced := true}),
      it.choice = c → it.beingdragged = false := by
    intro it hit hc
    obtain ⟨y, hy, rfl⟩ := List.mem_map.mp hit
    exact hbd y hy hc
  have hm0not0 : QuizQuestionEngine.placedMarker st c 0 10 10 ∉
      st.items.map (fun it => { it with unneeded := true, unplaced := true}) := by
    intro hm
    have := h0unq _ hm
    simp [QuizQuestionEngine.placedMarker] at this
  have hchar1 := placeMarker_mem_char st
    (st.items.map (fun it => { it with unneeded := true, unplaced := true})) c 0 10 10
  have hm0mem1 := placeMarker_new_mem st
    (st.items.map (fun it => { it with unneeded := true, unplaced := true})) c 0 10 10
  have hcnt0_1 := placeMarker_count_new st
    (st.items.map (fun it => { it with unneeded := true, unplaced := true})) c 0 10 10 hm0not0
  have hm1not1 : QuizQuestionEngine.placedMarker st c 1 50 60 ∉
      QuizQuestionEngine.placeMarker st
        (st.items.map (fun it => { it with unneeded := true, unplaced := true})) c 0 10 10 := by
    intro hm
    rcases hchar1 _ hm with h | h
    · exact hm01 h.symm
    · have := h0unq _ h
      simp [QuizQuestionEngine.placedMarker] at this
  have hchar2 := placeMarker_mem_char st
    (QuizQuestionEngine.placeMarker st
      (st.items.map (fun it => { it with unneeded := true, unplaced := true})) c 0 10 10)
    c 1 50 60
  have hm1mem2 := placeMarker_new_mem st
    (QuizQuestionEngine.placeMarker st
      (st.items.map (fun it => { it with unneeded := true, unplaced := true})) c 0 10 10)
    c 1 50 60
  have hcnt1_2 := placeMarker_count_new st
    (QuizQuestionEngine.placeMarker st
      (st.items.map (fun it => { it with unneeded := true, unplaced := true})) c 0 10 10)
    c 1 50 60 hm1not1
  have hcnt0_2 : (QuizQuestionEngine.placeMarker st
      (QuizQuestionEngine.placeMarker st
        (st.items.map (fun it => { it with unneeded := true, unplaced := true})) c 0 10 10)
      c 1 50 60).count (QuizQuestionEngine.placedMarker st c 0 10 10) = 1 := by
    rw [placeMarker_count_other st _ c 1 50 60 _ hm01
      (by simp [QuizQuestionEngine.placedMarker])]
    exact hcnt0_1
  have hm0mem2 : QuizQuestionEngine.placedMarker st c 0 10 10 ∈
      QuizQuestionEngine.placeMarker st
        (QuizQuestionEngine.placeMarker st
          (st.items.map (fun it => { it with unneeded := true, unplaced := true})) c 0 10 10)
        c 1 50 60 := by
    have := hcnt0_2
    by_contra hnm
    rw [List.count_eq_zero_of_not_mem hnm] at this
    simp at this
  refine ⟨?_, ?_, ?_, ?_, ?_⟩
  · intro it hit hc
    rw [hred] at hit
    have hmem := List.mem_filter.mp hit
    rcases hchar2 _ hmem.1 with h | h
    · exact Or.inr h
    · rcases hchar1 _ h with h' | h'
      · exact Or.inl h'
      · exfalso
        have hu := h0unq _ h'
        have hb := h0bd _ h' hc
        have := hmem.2
        rw [hu, hb] at this
        simp at this
  · rw [hred]
    exact List.mem_filter.mpr ⟨hm0mem2, by simp [QuizQuestionEngine.placedMarker]⟩
  · rw [hred]
    exact List.mem_filter.mpr ⟨hm1mem2, by simp [QuizQuestionEngine.placedMarker]⟩
  · rw [hred, count_filter_of_pos _ _ _ (by simp [QuizQuestionEngine.placedMarker])]
    exact hcnt0_2
  · rw [hred, count_filter_of_pos _ _ _ (by simp [QuizQuestionEngine.placedMarker])]
    exact hcnt1_2

/-- A concrete ddmarker container: one choice-3 input holding
`"10,10;50,60"`, image at half size (`proportion = 1/2`), background offset
`(5, 7)`, marker margins `(2, 3)`, no instances yet, nothing selected. -/
def c9St : MarkerContainer :=
  ⟨[], [⟨3, "10,10;50,60", false, none⟩], [(3, (0, 0))], 1/2, 5, 7, 2, 3, none⟩

/-- Witness for C9 at the concrete container `c9St`. -/
theorem marker_redraw_reconciliation_witness :
    (∀ it ∈ (QuizQuestionEngine.ddMarkerRedraw c9St).items, it.choice = 3 →
      (it = QuizQuestionEngine.placedMarker c9St 3 0 10 10 ∨
       it = QuizQuestionEngine.placedMarker c9St 3 1 50 60)) ∧
    QuizQuestionEngine.placedMarker c9St 3 0 10 10 ∈
      (QuizQuestionEngine.ddMarkerRedraw c9St).items ∧
    QuizQuestionEngine.placedMarker c9St 3 1 50 60 ∈
      (QuizQuestionEngine.ddMarkerRedraw c9St).items ∧
    (QuizQuestionEngine.ddMarkerRedraw c9St).items.count
      (QuizQuestionEngine.placedMarker c9St 3 0 10 10) = 1 ∧
    (QuizQuestionEngine.ddMarkerRedraw c9St).items.count
      (QuizQuestionEngine.placedMarker c9St 3 1 50 60) = 1 :=
  marker_redraw_reconciliation c9St ⟨3, "10,10;50,60", false, none⟩ 3 (0, 0)
    rfl rfl rfl rfl (by decide) (by decide) (by decide) (by simp [c9St])

/-! ## 6. Gateway URL transforms (`getFileUrl`, `rewritePluginfileUrls`)

`rewritePluginfileUrls` replaces `@@PLUGINFILE@@` placeholders and then runs
the global case-insensitive regex
`(escapedSite/(?:webservice/)?pluginfile\.php/[^"'\s<>]*)` over the HTML,
appending `?token=…`/`&token=…` to each matched URL unless it already
contains `token=`.  The regex engine is embedded as a left-to-right scanner
over `List Char`: at each position it tries the pattern with the
`webservice/` alternative first, then without, then extends greedily over
the URL character class; on failure it advances one character.
Case-insensitive matching is ASCII case folding (`lcEq`). -/

/-- The complement of the regex class `["'\s<>]` (ASCII plus the JS
whitespace code points), by character code. -/
def urlCharB (c : Char) : Bool :=
  ¬ (c.toNat = 34 ∨ c.toNat = 39 ∨ c.toNat = 60 ∨ c.toNat = 62 ∨ c.toNat = 32 ∨
     c.toNat = 9 ∨ c.toNat = 10 ∨ c.toNat = 13 ∨ c.toNat = 11 ∨ c.toNat = 12 ∨
     c.toNat = 160 ∨ c.toNat = 5760 ∨ (8192 ≤ c.toNat ∧ c.toNat ≤ 8202) ∨
     c.toNat = 8232 ∨ c.toNat = 8233 ∨ c.toNat = 8239 ∨ c.toNat = 8287 ∨
     c.toNat = 12288 ∨ c.toNat = 65279)

/-- ASCII case-insensitive character equality (the `i` regex flag). -/
def lcEq (a b : Char) : Bool :=
  a = b ||
    (65 ≤ a.toNat ∧ a.toNat ≤ 90 ∧ a.toNat + 32 = b.toNat) ||
    (65 ≤ b.toNat ∧ b.toNat ≤ 90 ∧ b.toNat + 32 = a.toNat)

/-- Generic "starts with" under a character comparison. -/
def swG (eqf : Char → Char → Bool) : List Char → List Char → Bool
  | [], _ => true
  | _ :: _, [] => false
  | p :: ps, c :: cs => eqf p c && swG eqf ps cs

/-- Generic substring test (`String.prototype.includes` when instantiated
with plain equality). -/
def hasSubG (eqf : Char → Char → Bool) : List Char → List Char → Bool
  | [], p => p.isEmpty
  | c :: cs, p => swG eqf p (c :: cs) || hasSubG eqf cs p

/-- Plain (case-sensitive) character equality. -/
def ceq (a b : Char) : Bool := a = b

/-- Length of the greedy `[^"'\s<>]*` run at the head. -/
def urlRun : List Char → Nat
  | [] => 0
  | c :: cs => if urlCharB c then urlRun cs + 1 else 0

theorem lcEq_refl (a : Char) : lcEq a a = true := by
  simp [lcEq]

theorem ceq_refl (a : Char) : ceq a a = true := by
  simp [ceq]

theorem urlCharB_of_bounds {a : Char} (h1 : 65 ≤ a.toNat) (h2 : a.toNat ≤ 122) :
    urlCharB a = true := by
  unfold urlCharB
  simp only [decide_eq_true_eq]
  omega

theorem lcEq_urlChar {a b : Char} (h : lcEq a b = true) : urlCharB a = urlCharB b := by
  simp only [lcEq, Bool.or_eq_true, decide_eq_true_eq] at h
  rcases h with (h | h) | h
  · rw [h]
  · rw [urlCharB_of_bounds (by omega) (by omega),
      urlCharB_of_bounds (a := b) (by omega) (by omega)]
  · rw [urlCharB_of_bounds (by omega) (by omega),
      urlCharB_of_bounds (a := b) (by omega) (by omega)]

theorem lcEq_quest {a : Char} (h : lcEq a '?' = true) : a = '?' := by
  simp only [lcEq, Bool.or_eq_true, decide_eq_true_eq] at h
  rcases h with (h | h) | h
  · exact h
  · exfalso
    have : ('?').toNat = 63 := by decide
    omega
  · exfalso
    have : ('?').toNat = 63 := by decide
    omega

theorem lcEq_amp {a : Char} (h : lcEq a '&' = true) : a = '&' := by
  simp only [lcEq, Bool.or_eq_true, decide_eq_true_eq] at h
  rcases h with (h | h) | h
  · exact h
  · exfalso
    have : ('&').toNat = 38 := by decide
    omega
  · exfalso
    have : ('&').toNat = 38 := by decide
    omega

theorem lcEq_pw {x : Char} (h1 : lcEq 'p' x = true) (h2 : lcEq 'w' x = true) : False := by
  simp only [lcEq, Bool.or_eq_true, decide_eq_true_eq] at h1 h2
  have hp : ('p').toNat = 112 := by decide
  have hw : ('w').toNat = 119 := by decide
  have hx1 : x.toNat = 112 ∨ x.toNat = 80 := by
    rcases h1 with (h | h) | h
    · left; rw [← h, hp]
    · omega
    · omega
  have hx2 : x.toNat = 119 ∨ x.toNat = 87 := by
    rcases h2 with (h | h) | h
    · left; rw [← h, hw]
    · omega
    · omega
  omega

theorem swG_length {eqf : Char → Char → Bool} {p s : List Char}
    (h : swG eqf p s = true) : p.length ≤ s.length := by
  induction p generalizing s with
  | nil => simp
  | cons a as ih =>
    cases s with
    | nil => simp [swG] at h
    | cons c cs =>
      simp only [swG, Bool.and_eq_true] at h
      simpa using ih h.2

theorem swG_append_pattern (eqf : Char → Char → Bool) (x y s : List Char) :
    swG eqf (x ++ y) s = (swG eqf x s && swG eqf y (s.drop x.length)) := by
  induction x generalizing s with
  | nil => simp [swG]
  | cons a as ih =>
    cases s with
    | nil => simp [swG]
    | cons c cs =>
      simp only [List.cons_append, swG, List.length_cons, List.drop_succ_cons,
        List.append_eq, ih, Bool.and_assoc]

theorem swG_take {eqf : Char → Char → Bool} {p s : List Char} {n : Nat}
    (h : swG eqf p s = true) (hn : p.length ≤ n) : swG eqf p (s.take n) = true := by
  induction p generalizing s n with
  | nil => simp [swG]
  | cons a as ih =>
    cases s with
    | nil => simp [swG] at h
    | cons c cs =>
      cases n with
      | zero => simp at hn
      | succ m =>
        simp only [swG, Bool.and_eq_true] at h
        simp only [List.take_succ_cons, swG, Bool.and_eq_true]
        exact ⟨h.1, ih h.2 (by simpa using hn)⟩

theorem swG_append_right {eqf : Char → Char → Bool} {p s : List Char}
    (h : swG eqf p s = true) (t : List Char) : swG eqf p (s ++ t) = true := by
  induction p generalizing s with
  | nil => rfl
  | cons a as ih =>
    cases s with
    | nil => simp [swG] at h
    | cons c cs =>
      simp only [swG, Bool.and_eq_true] at h
      simp only [List.cons_append, swG, Bool.and_eq_true]
      exact ⟨h.1, ih h.2⟩

theorem swG_chars_urlChar {p s : List Char}
    (h : swG lcEq p s = true) (hp : ∀ a ∈ p, urlCharB a = true) :
    ∀ c ∈ s.take p.length, urlCharB c = true := by
  induction p generalizing s with
  | nil => simp
  | cons a as ih =>
    cases s with
    | nil => simp [swG] at h
    | cons c cs =>
      simp only [swG, Bool.and_eq_true] at h
      intro x hx
      simp only [List.length_cons, List.take_succ_cons, List.mem_cons] at hx
      rcases hx with hx | hx
      · subst hx
        rw [← lcEq_urlChar h.1]
        exact hp a (List.mem_cons_self _ _)
      · exact ih h.2 (fun y hy => hp y (List.mem_cons_of_mem _ hy)) x hx

theorem hasSubG_nil_pattern {eqf : Char → Char → Bool} (l : List Char) :
    hasSubG eqf l [] = true := by
  cases l with
  | nil => rfl
  | cons c cs => simp [hasSubG, swG]

theorem hasSubG_of_swG {eqf : Char → Char → Bool} {l pat : List Char}
    (h : swG eqf pat l = true) : hasSubG eqf l pat = true := by
  cases l with
  | nil =>
    cases pat with
    | nil => rfl
    | cons a as => simp [swG] at h
  | cons c cs => simp [hasSubG, h]

theorem hasSubG_append_left {eqf : Char → Char → Bool} {l pat : List Char}
    (h : hasSubG eqf l pat = true) (u : List Char) : hasSubG eqf (u ++ l) pat = true := by
  induction u with
  | nil => exact h
  | cons c cs ih => simp [hasSubG, ih]

theorem swG_self_append (eqf : Char → Char → Bool) (hrefl : ∀ a, eqf a a = true)
    (p t : List Char) : swG eqf p (p ++ t) = true := by
  induction p with
  | nil => rfl
  | cons a as ih => simp [swG, hrefl, ih]

theorem urlRun_le (s : List Char) : urlRun s ≤ s.length := by
  induction s with
  | nil => simp [urlRun]
  | cons c cs ih =>
    by_cases h : urlCharB c
    · simp only [urlRun, h, if_true, List.length_cons]
      omega
    · simp [urlRun, h]

theorem urlRun_chars (s : List Char) : ∀ c ∈ s.take (urlRun s), urlCharB c = true := by
  induction s with
  | nil => simp
  | cons c cs ih =>
    by_cases h : urlCharB c
    · simp only [urlRun, h, if_true, List.take_succ_cons]
      intro x hx
      rcases List.mem_cons.mp hx with hx | hx
      · exact hx ▸ h
      · exact ih x hx
    · simp [urlRun, h]

theorem urlRun_stop (s : List Char) :
    s.drop (urlRun s) = [] ∨
      ∃ d ds, s.drop (urlRun s) = d :: ds ∧ urlCharB d = false := by
  induction s with
  | nil => exact Or.inl rfl
  | cons c cs ih =>
    by_cases h : urlCharB c
    · simpa only [urlRun, h, if_true, List.drop_succ_cons] using ih
    · exact Or.inr ⟨c, cs, by simp [urlRun, h], by simp [h]⟩

theorem urlRun_full (A T : List Char) (hA : ∀ c ∈ A, urlCharB c = true)
    (hT : T = [] ∨ ∃ d ds, T = d :: ds ∧ urlCharB d = false) :
    urlRun (A ++ T) = A.length := by
  induction A with
  | nil =>
    rcases hT with h | ⟨d, ds, h, hd⟩
    · simp [h, urlRun]
    · simp [h, urlRun, hd]
  | cons c cs ih =>
    have hc : urlCharB c = true := hA c (List.mem_cons_self _ _)
    simp only [List.cons_append, urlRun, hc, if_true, List.length_cons, List.append_eq]
    rw [ih (fun x hx => hA x (List.mem_cons_of_mem _ hx))]

/-- `/webservice/pluginfile.php/` — the pattern tail with the greedy
alternative taken. -/
def fixWsPath : List Char := "/webservice/pluginfile.php/".toList

/-- `/pluginfile.php/` — the pattern tail with the empty alternative. -/
def fixPath : List Char := "/pluginfile.php/".toList

def tokEq : List Char := "token=".toList

def magicPh : List Char := "@@PLUGINFILE@@".toList

/-- The replacement callback of `html.replace(re, url => …)`: keep the URL
when it already contains `token=`, else append `?token=…`/`&token=…`. -/
def processUrl (token url : List Char) : List Char :=
  if hasSubG ceq url tokEq then url
  else url ++ ((if url.contains '?' then '&' else '?') :: (tokEq ++ token))

/-- Regex match attempt at the current position: the site literal, then
`(?:webservice/)?pluginfile\.php/` (greedy alternative first), then the
greedy URL-character run; returns the total matched length. -/
def matchLen (site s : List Char) : Option Nat :=
  if swG lcEq (site ++ fixWsPath) s then
    some ((site ++ fixWsPath).length + urlRun (s.drop (site ++ fixWsPath).length))
  else if swG lcEq (site ++ fixPath) s then
    some ((site ++ fixPath).length + urlRun (s.drop (site ++ fixPath).length))
  else none

theorem matchLen_pos {site s : List Char} {n : Nat} (h : matchLen site s = some n) :
    1 ≤ n := by
  unfold matchLen at h
  by_cases h1 : swG lcEq (site ++ fixWsPath) s = true
  · rw [if_pos h1] at h
    have : (site ++ fixWsPath).length = site.length + 27 := by
      simp [fixWsPath]
    simp only [Option.some.injEq] at h
    omega
  · rw [if_neg h1] at h
    by_cases h2 : swG lcEq (site ++ fixPath) s = true
    · rw [if_pos h2] at h
      have : (site ++ fixPath).length = site.length + 16 := by
        simp [fixPath]
      simp only [Option.some.injEq] at h
      omega
    · rw [if_neg h2] at h
      simp at h

theorem matchLen_le {site s : List Char} {n : Nat} (h : matchLen site s = some n) :
    n ≤ s.length := by
  unfold matchLen at h
  by_cases h1 : swG lcEq (site ++ fixWsPath) s = true
  · rw [if_pos h1] at h
    simp only [Option.some.injEq] at h
    have hl := swG_length h1
    have hr := urlRun_le (s.drop (site ++ fixWsPath).length)
    rw [List.length_drop] at hr
    omega
  · rw [if_neg h1] at h
    by_cases h2 : swG lcEq (site ++ fixPath) s = true
    · rw [if_pos h2] at h
      simp only [Option.some.injEq] at h
      have hl := swG_length h2
      have hr := urlRun_le (s.drop (site ++ fixPath).length)
      rw [List.length_drop] at hr
      omega
    · rw [if_neg h2] at h
      simp at h

/-- The global-regex replacement loop of `String.prototype.replace` with a
`g` regex: find the leftmost match, rewrite it through the callback, resume
after the match; advance one character on failure.  Structured with a fuel
argument (one unit per scan position) so the function is structurally
recursive; `rewriteScan` below instantiates the fuel with the input length,
which `rewriteScanF_fuel_eq` shows is always enough. -/
def rewriteScanF (site token : List Char) : Nat → List Char → List Char
  | _, [] => []
  | 0, s => s
  | fuel + 1, c :: cs =>
    match matchLen site (c :: cs) with
    | some n =>
      processUrl token ((c :: cs).take n) ++
        rewriteScanF site token fuel ((c :: cs).drop n)
    | none => c :: rewriteScanF site token fuel cs

def rewriteScan (site token s : List Char) : List Char :=
  rewriteScanF site token s.length s

theorem rewriteScanF_fuel_eq (site token : List Char) :
    ∀ (f1 : Nat), ∀ (f2 : Nat) (s : List Char), s.length ≤ f1 → s.length ≤ f2 →
      rewriteScanF site token f1 s = rewriteScanF site token f2 s := by
  intro f1
  induction f1 with
  | zero =>
    intro f2 s h1 _
    have : s = [] := List.length_eq_zero.mp (Nat.le_zero.mp h1)
    subst this
    cases f2 <;> rfl
  | succ f ih =>
    intro f2 s h1 h2
    cases s with
    | nil => cases f2 <;> rfl
    | cons c cs =>
      cases f2 with
      | zero => simp at h2
      | succ f2' =>
        simp only [rewriteScanF]
        cases hm : matchLen site (c :: cs) with
        | some n =>
          have hpos := matchLen_pos hm
          have hlen : ((c :: cs).drop n).length ≤ f := by
            simp only [List.length_drop, List.length_cons]
            simp only [List.length_cons] at h1
            omega
          have hlen2 : ((c :: cs).drop n).length ≤ f2' := by
            simp only [List.length_drop, List.length_cons]
            simp only [List.length_cons] at h2
            omega
          show processUrl token ((c :: cs).take n) ++ rewriteScanF site token f ((c :: cs).drop n) =
            processUrl token ((c :: cs).take n) ++ rewriteScanF site token f2' ((c :: cs).drop n)
          rw [ih f2' _ hlen hlen2]
        | none =>
          have hlen : cs.length ≤ f := by
            simp only [List.length_cons] at h1
            omega
          have hlen2 : cs.length ≤ f2' := by
            simp only [List.length_cons] at h2
            omega
          show c :: rewriteScanF site token f cs = c :: rewriteScanF site token f2' cs
          rw [ih f2' _ hlen hlen2]

theorem rewriteScan_nil (site token : List Char) : rewriteScan site token [] = [] := rfl

theorem rewriteScan_cons_some {site : List Char} (token : List Char) {c : Char}
    {cs : List Char} {n : Nat} (h : matchLen site (c :: cs) = some n) :
    rewriteScan site token (c :: cs) =
      processUrl token ((c :: cs).take n) ++ rewriteScan site token ((c :: cs).drop n) := by
  unfold rewriteScan
  show rewriteScanF site token (cs.length + 1) (c :: cs) = _
  simp only [rewriteScanF, h]
  have hpos := matchLen_pos h
  have hle : ((c :: cs).drop n).length ≤ cs.length := by
    simp only [List.length_drop, List.length_cons]
    omega
  rw [rewriteScanF_fuel_eq site token cs.length ((c :: cs).drop n).length
    ((c :: cs).drop n) hle (le_refl _)]

theorem rewriteScan_cons_none {site : List Char} (token : List Char) {c : Char}
    {cs : List Char} (h : matchLen site (c :: cs) = none) :
    rewriteScan site token (c :: cs) = c :: rewriteScan site token cs := by
  unfold rewriteScan
  show rewriteScanF site token (cs.length + 1) (c :: cs) = _
  simp only [rewriteScanF, h]

/-- `html.replace(/@@PLUGINFILE@@/g, repl)` for the literal placeholder
(fueled like `rewriteScanF`). -/
def replaceMagicF (repl : List Char) : Nat → List Char → List Char
  | _, [] => []
  | 0, s => s
  | fuel + 1, c :: cs =>
    if swG ceq magicPh (c :: cs) then
      repl ++ replaceMagicF repl fuel ((c :: cs).drop magicPh.length)
    else c :: replaceMagicF repl fuel cs

def replaceMagic (repl s : List Char) : List Char :=
  replaceMagicF repl s.length s

theorem replaceMagicF_fuel_eq (repl : List Char) :
    ∀ (f1 : Nat), ∀ (f2 : Nat) (s : List Char), s.length ≤ f1 → s.length ≤ f2 →
      replaceMagicF repl f1 s = replaceMagicF repl f2 s := by
  intro f1
  induction f1 with
  | zero =>
    intro f2 s h1 _
    have : s = [] := List.length_eq_zero.mp (Nat.le_zero.mp h1)
    subst this
    cases f2 <;> rfl
  | succ f ih =>
    intro f2 s h1 h2
    cases s with
    | nil => cases f2 <;> rfl
    | cons c cs =>
      cases f2 with
      | zero => simp at h2
      | succ f2' =>
        simp only [replaceMagicF]
        by_cases hm : swG ceq magicPh (c :: cs) = true
        · rw [if_pos hm, if_pos hm]
          have hm14 : magicPh.length = 14 := by decide
          have hlen : ((c :: cs).drop magicPh.length).length ≤ f := by
            simp only [List.length_drop, List.length_cons]
            simp only [List.length_cons] at h1
            omega
          have hlen2 : ((c :: cs).drop magicPh.length).length ≤ f2' := by
            simp only [List.length_drop, List.length_cons]
            simp only [List.length_cons] at h2
            omega
          rw [ih f2' _ hlen hlen2]
        · rw [if_neg hm, if_neg hm]
          have hlen : cs.length ≤ f := by
            simp only [List.length_cons] at h1
            omega
          have hlen2 : cs.length ≤ f2' := by
            simp only [List.length_cons] at h2
            omega
          rw [ih f2' _ hlen hlen2]

theorem replaceMagic_cons_pos {repl : List Char} {c : Char} {cs : List Char}
    (h : swG ceq magicPh (c :: cs) = true) :
    replaceMagic repl (c :: cs) =
      repl ++ replaceMagic repl ((c :: cs).drop magicPh.length) := by
  unfold replaceMagic
  show replaceMagicF repl (cs.length + 1) (c :: cs) = _
  simp only [replaceMagicF, if_pos h]
  have hle : ((c :: cs).drop magicPh.length).length ≤ cs.length := by
    simp only [List.length_drop, List.length_cons]
    have : magicPh.length = 14 := by decide
    omega
  rw [replaceMagicF_fuel_eq repl cs.length ((c :: cs).drop magicPh.length).length
    ((c :: cs).drop magicPh.length) hle (le_refl _)]

theorem replaceMagic_cons_neg {repl : List Char} {c : Char} {cs : List Char}
    (h : ¬ swG ceq magicPh (c :: cs) = true) :
    replaceMagic repl (c :: cs) = c :: replaceMagic repl cs := by
  unfold replaceMagic
  show replaceMagicF repl (cs.length + 1) (c :: cs) = _
  simp only [replaceMagicF, if_neg h]

namespace MoodleApiService

/-- `rewritePluginfileUrls`: bail out on empty HTML/site/token; substitute
`@@PLUGINFILE@@` placeholders when present; append the token to every
same-site `pluginfile.php` URL that does not already carry one. -/
def rewritePluginfileUrls (siteUrl token html : String) : String :=
  if html = "" ∨ siteUrl = "" ∨ token = "" then html
  else
    let h1 := if hasSubG ceq html.toList magicPh then
        replaceMagic (siteUrl.toList ++ ("/webservice/pluginfile.php").toList) html.toList
      else html.toList
    String.mk (rewriteScan siteUrl.toList token.toList h1)

end MoodleApiService

/-! `new URL(u).origin`, modelled for hierarchical URLs: the scheme before
the first `://`, plus the authority up to the first `/`, `?` or `#`;
`none` models the constructor throwing (the `catch` branch). -/

def findSchemeSep : List Char → Option (List Char × List Char)
  | [] => none
  | c :: cs =>
    if swG ceq (":" ++ "//").toList (c :: cs) then some ([], (c :: cs).drop 3)
    else (findSchemeSep cs).map (fun p => (c :: p.1, p.2))

def urlOrigin (u : List Char) : Option (List Char) :=
  match findSchemeSep u with
  | none => none
  | some (scheme, rest) =>
    if scheme = [] then none
    else
      let host := rest.takeWhile (fun c => ¬ (c = '/' ∨ c = '?' ∨ c = '#'))
      if host = [] then none
      else some (scheme ++ (":" ++ "//").toList ++ host)

namespace MoodleApiService

/-- `getFileUrl`: empty input gives `''`; a URL whose origin differs from the
configured site's origin (or that does not parse) passes through unchanged;
a same-origin URL gets `?token=…` or `&token=…` appended. -/
def getFileUrl (siteUrl token fileUrl : String) : String :=
  if fileUrl = "" then ""
  else
    match urlOrigin fileUrl.toList, urlOrigin siteUrl.toList with
    | some fo, some so =>
      if fo ≠ so then fileUrl
      else
        String.mk (fileUrl.toList ++
          ((if fileUrl.toList.contains '?' then '&' else '?') :: (tokEq ++ token.toList)))
    | _, _ => fileUrl

end MoodleApiService

example :
    MoodleApiService.getFileUrl "https://moodle.example" "tok"
      "https://moodle.example/f.png" = "https://moodle.example/f.png?token=tok" := by
  decide

example :
    MoodleApiService.rewritePluginfileUrls "https://m.ex" "tok"
      "<img src=\"https://m.ex/webservice/pluginfile.php/1/a.png\">" =
    "<img src=\"https://m.ex/webservice/pluginfile.php/1/a.png?token=tok\">" := by
  decide

/-! ### Insertion relation

`Ins P s t` says `t` is obtained from `s` by a left-to-right pass that
copies characters and substitutes segments (`P orig seg` describing each
substitution).  Both replacement passes of `rewritePluginfileUrls` produce
outputs related to their inputs this way, which gives uniform "a pattern
match in the output pulls back to the input" transfer lemmas. -/

inductive Ins (P : List Char → List Char → Prop) : List Char → List Char → Prop
  | nil : Ins P [] []
  | copy (c : Char) {s t : List Char} : Ins P s t → Ins P (c :: s) (c :: t)
  | subst (orig seg : List Char) {s t : List Char} :
      P orig seg → Ins P s t → Ins P (orig ++ s) (seg ++ t)

theorem Ins.copies {P : List Char → List Char → Prop} (u : List Char)
    {s t : List Char} (h : Ins P s t) : Ins P (u ++ s) (u ++ t) := by
  induction u with
  | nil => exact h
  | cons c cs ih => exact Ins.copy c ih

/-- A pattern whose characters all satisfy `C` cannot match into a
substituted segment whose head refutes every `C`-character, so a match in
the output pulls back to a match in the input. -/
theorem rel_swG {P : List Char → List Char → Prop} {eqf : Char → Char → Bool}
    {C : Char → Prop}
    (hP : ∀ orig seg, P orig seg →
      ∃ d rest, seg = d :: rest ∧ ∀ a, C a → eqf a d = false) :
    ∀ {s t : List Char}, Ins P s t → ∀ {pat : List Char},
      (∀ a ∈ pat, C a) → swG eqf pat t = true → swG eqf pat s = true := by
  intro s t h
  induction h with
  | nil =>
    intro pat _ hm
    cases pat with
    | nil => rfl
    | cons a as => simp [swG] at hm
  | copy c h ih =>
    intro pat hC hm
    cases pat with
    | nil => rfl
    | cons a as =>
      simp only [swG, Bool.and_eq_true] at hm ⊢
      exact ⟨hm.1, ih (fun x hx => hC x (List.mem_cons_of_mem _ hx)) hm.2⟩
  | subst orig seg hseg h ih =>
    intro pat hC hm
    cases pat with
    | nil => rfl
    | cons a as =>
      exfalso
      obtain ⟨d, rest, hd, hne⟩ := hP _ _ hseg
      rw [hd] at hm
      simp only [List.cons_append, swG, Bool.and_eq_true] at hm
      rw [hne a (hC a (List.mem_cons_self _ _))] at hm
      exact Bool.false_ne_true hm.1

theorem hasSubG_append_false {eqf : Char → Char → Bool} {u v pat : List Char}
    {p0 : Char} {ps : List Char} (hpat : pat = p0 :: ps)
    (hu : ∀ c ∈ u, eqf p0 c = false) (hv : hasSubG eqf v pat = false) :
    hasSubG eqf (u ++ v) pat = false := by
  induction u with
  | nil => exact hv
  | cons c cs ih =>
    simp only [List.cons_append, hasSubG, Bool.or_eq_false_iff]
    constructor
    · rw [hpat]
      simp only [swG]
      rw [hu c (List.mem_cons_self _ _)]
      rfl
    · exact ih (fun x hx => hu x (List.mem_cons_of_mem _ hx))

theorem hasSubG_false_of_append {eqf : Char → Char → Bool} {u v pat : List Char}
    (h : hasSubG eqf (u ++ v) pat = false) : hasSubG eqf v pat = false := by
  cases hv : hasSubG eqf v pat with
  | false => rfl
  | true => rw [hasSubG_append_left hv u] at h; simp at h

/-- Substituted segments that no pattern position can enter (head refuted by
every pattern character) and that contain no character matching the pattern
head preserve pattern-freeness. -/
theorem rel_hasSub_false {P : List Char → List Char → Prop}
    {eqf : Char → Char → Bool} {pat : List Char} {p0 : Char} {ps : List Char}
    (hpat : pat = p0 :: ps)
    (hP : ∀ orig seg, P orig seg →
      ∃ d rest, seg = d :: rest ∧ (∀ a, a ∈ pat → eqf a d = false) ∧
        ∀ c ∈ seg, eqf p0 c = false) :
    ∀ {s t : List Char}, Ins P s t →
      hasSubG eqf s pat = false → hasSubG eqf t pat = false := by
  intro s t h
  induction h with
  | nil => intro _; rw [hpat]; rfl
  | copy c h ih =>
    intro hs
    simp only [hasSubG, Bool.or_eq_false_iff] at hs ⊢
    refine ⟨?_, ih hs.2⟩
    cases hm : swG eqf pat (c :: _) with
    | false => rfl
    | true =>
      exfalso
      have := rel_swG (C := fun a => a ∈ pat)
        (fun orig seg hseg => by
          obtain ⟨d, rest, hd, hC, _⟩ := hP _ _ hseg
          exact ⟨d, rest, hd, hC⟩)
        (Ins.copy c h) (fun a ha => ha) hm
      rw [hs.1] at this
      exact Bool.false_ne_true this
  | subst orig seg hseg h ih =>
    intro hs
    obtain ⟨d, rest, hd, _, hhead⟩ := hP _ _ hseg
    exact hasSubG_append_false hpat hhead (ih (hasSubG_false_of_append hs))

theorem swG_ceq_eq {p s : List Char} (h : swG ceq p s = true) :
    s = p ++ s.drop p.length := by
  induction p generalizing s with
  | nil => simp
  | cons a as ih =>
    cases s with
    | nil => simp [swG] at h
    | cons c cs =>
      simp only [swG, Bool.and_eq_true, ceq, decide_eq_true_eq] at h
      have := ih h.2
      simp only [List.length_cons, List.drop_succ_cons, List.cons_append]
      rw [h.1, ← this]

/-- The substitutions performed by the token-appending scan: pure insertions
of `?token=…` / `&token=…`. -/
def Pscan (token : List Char) (orig seg : List Char) : Prop :=
  orig = [] ∧ ∃ sep, (sep = '?' ∨ sep = '&') ∧ seg = sep :: (tokEq ++ token)

/-- The substitutions performed by placeholder replacement. -/
def Pmagic (repl : List Char) (orig seg : List Char) : Prop :=
  orig = magicPh ∧ seg = repl

theorem R_scanF (site token : List Char) :
    ∀ (fuel : Nat) (s : List Char), s.length ≤ fuel →
      Ins (Pscan token) s (rewriteScanF site token fuel s) := by
  intro fuel
  induction fuel with
  | zero =>
    intro s hs
    have : s = [] := List.length_eq_zero.mp (Nat.le_zero.mp hs)
    subst this
    exact Ins.nil
  | succ f ih =>
    intro s hs
    cases s with
    | nil => exact Ins.nil
    | cons c cs =>
      simp only [rewriteScanF]
      cases hm : matchLen site (c :: cs) with
      | some n =>
        have hpos := matchLen_pos hm
        have hdrop : ((c :: cs).drop n).length ≤ f := by
          simp only [List.length_drop, List.length_cons]
          simp only [List.length_cons] at hs
          omega
        have hrec := ih ((c :: cs).drop n) hdrop
        show Ins (Pscan token) (c :: cs)
          (processUrl token ((c :: cs).take n) ++ rewriteScanF site token f ((c :: cs).drop n))
        rw [processUrl]
        by_cases hhas : hasSubG ceq ((c :: cs).take n) tokEq = true
        · rw [if_pos hhas]
          have hres := Ins.copies ((c :: cs).take n) hrec
          rwa [List.take_append_drop] at hres
        · rw [if_neg hhas]
          have hres := Ins.copies ((c :: cs).take n)
            (Ins.subst [] _
              ⟨rfl, (if (List.take n (c :: cs)).contains '?' then '&' else '?'),
                (by split <;> simp), rfl⟩ hrec)
          rw [List.nil_append, List.take_append_drop] at hres
          rwa [← List.append_assoc] at hres
      | none =>
        have hlen : cs.length ≤ f := by
          simp only [List.length_cons] at hs
          omega
        exact Ins.copy c (ih cs hlen)

theorem R_scan (site token s : List Char) :
    Ins (Pscan token) s (rewriteScan site token s) :=
  R_scanF site token s.length s (le_refl _)

theorem R_magicF (repl : List Char) :
    ∀ (fuel : Nat) (s : List Char), s.length ≤ fuel →
      Ins (Pmagic repl) s (replaceMagicF repl fuel s) := by
  intro fuel
  induction fuel with
  | zero =>
    intro s hs
    have : s = [] := List.length_eq_zero.mp (Nat.le_zero.mp hs)
    subst this
    exact Ins.nil
  | succ f ih =>
    intro s hs
    cases s with
    | nil => exact Ins.nil
    | cons c cs =>
      simp only [replaceMagicF]
      by_cases hm : swG ceq magicPh (c :: cs) = true
      · rw [if_pos hm]
        have hm14 : magicPh.length = 14 := by decide
        have hdrop : ((c :: cs).drop magicPh.length).length ≤ f := by
          simp only [List.length_drop, List.length_cons]
          simp only [List.length_cons] at hs
          omega
        have hrec := ih ((c :: cs).drop magicPh.length) hdrop
        have hsplit := swG_ceq_eq hm
        conv_lhs => rw [hsplit]
        exact Ins.subst magicPh repl ⟨rfl, rfl⟩ hrec
      · rw [if_neg hm]
        have hlen : cs.length ≤ f := by
          simp only [List.length_cons] at hs
          omega
        exact Ins.copy c (ih cs hlen)

theorem R_magic (repl s : List Char) : Ins (Pmagic repl) s (replaceMagic repl s) :=
  R_magicF repl s.length s (le_refl _)

theorem magicPh_cons : magicPh = '@' :: ("@PLUGINFILE@@").toList := by decide

/-- Inserting `?token=…`/`&token=…` segments never creates a
`@@PLUGINFILE@@` occurrence (for a token free of `@`). -/
theorem scan_no_magic {site token : List Char} (htok : '@' ∉ token)
    {s : List Char} (hs : hasSubG ceq s magicPh = false) :
    hasSubG ceq (rewriteScan site token s) magicPh = false := by
  refine rel_hasSub_false magicPh_cons ?_ (R_scan site token s) hs
  rintro orig seg ⟨-, sep, hsep, rfl⟩
  refine ⟨sep, tokEq ++ token, rfl, ?_, ?_⟩
  · intro a ha
    rcases hsep with rfl | rfl
    · revert ha; revert a; decide
    · revert ha; revert a; decide
  · intro c hc
    rcases List.mem_cons.mp hc with rfl | hc
    · rcases hsep with rfl | rfl <;> decide
    · rcases List.mem_append.mp hc with hc | hc
      · exact (by decide : ∀ x ∈ tokEq, ceq '@' x = false) c hc
      · simp only [ceq, decide_eq_false_iff_not]
        intro h
        exact htok (h ▸ hc)

/-- Replacing every `@@PLUGINFILE@@` with a segment that starts with a
character matching no placeholder character and contains no `@` leaves a
string free of the placeholder. -/
theorem replaceMagic_no_occ {repl : List Char} (hat : '@' ∉ repl)
    (hhead : ∃ d rest, repl = d :: rest ∧ ∀ a ∈ magicPh, ceq a d = false) :
    ∀ (fuel : Nat) (s : List Char), s.length ≤ fuel →
      hasSubG ceq (replaceMagic repl s) magicPh = false := by
  intro fuel
  induction fuel with
  | zero =>
    intro s hs
    have : s = [] := List.length_eq_zero.mp (Nat.le_zero.mp hs)
    subst this
    rfl
  | succ f ih =>
    intro s hs
    cases s with
    | nil => rfl
    | cons c cs =>
      by_cases hm : swG ceq magicPh (c :: cs) = true
      · rw [replaceMagic_cons_pos hm]
        refine hasSubG_append_false magicPh_cons ?_ (ih _ ?_)
        · intro x hx
          simp only [ceq, decide_eq_false_iff_not]
          intro h
          exact hat (h ▸ hx)
        · have hm14 : magicPh.length = 14 := by decide
          simp only [List.length_drop, List.length_cons]
          simp only [List.length_cons] at hs
          omega
      · rw [replaceMagic_cons_neg hm]
        have hih : hasSubG ceq (replaceMagic repl cs) magicPh = false := by
          refine ih cs ?_
          simp only [List.length_cons] at hs
          omega
        simp only [hasSubG, Bool.or_eq_false_iff]
        refine ⟨?_, hih⟩
        cases hsw : swG ceq magicPh (c :: replaceMagic repl cs) with
        | false => rfl
        | true =>
          exfalso
          rw [magicPh_cons] at hsw
          simp only [swG, Bool.and_eq_true] at hsw
          have htail := rel_swG (C := fun a => a ∈ magicPh)
            (fun orig seg hseg => by
              obtain ⟨d, rest, hd, hC⟩ := hhead
              exact ⟨d, rest, hseg.2 ▸ hd, hC⟩)
            (R_magic repl cs)
            (fun a ha => by rw [magicPh_cons]; exact List.mem_cons_of_mem _ ha)
            hsw.2
          apply hm
          rw [magicPh_cons]
          simp only [swG, Bool.and_eq_true]
          exact ⟨hsw.1, htail⟩

theorem matchLen_some_cases {site s : List Char} {n : Nat}
    (h : matchLen site s = some n) :
    (swG lcEq (site ++ fixWsPath) s = true ∧
      n = (site ++ fixWsPath).length + urlRun (s.drop (site ++ fixWsPath).length)) ∨
    (swG lcEq (site ++ fixWsPath) s = false ∧ swG lcEq (site ++ fixPath) s = true ∧
      n = (site ++ fixPath).length + urlRun (s.drop (site ++ fixPath).length)) := by
  unfold matchLen at h
  by_cases h1 : swG lcEq (site ++ fixWsPath) s = true
  · rw [if_pos h1] at h
    simp only [Option.some.injEq] at h
    exact Or.inl ⟨h1, h.symm⟩
  · rw [if_neg h1] at h
    by_cases h2 : swG lcEq (site ++ fixPath) s = true
    · rw [if_pos h2] at h
      simp only [Option.some.injEq] at h
      exact Or.inr ⟨Bool.eq_false_iff.mpr h1, h2, h.symm⟩
    · rw [if_neg h2] at h
      simp at h

theorem matchLen_none_parts {site s : List Char} (h : matchLen site s = none) :
    swG lcEq (site ++ fixWsPath) s = false ∧ swG lcEq (site ++ fixPath) s = false := by
  unfold matchLen at h
  by_cases h1 : swG lcEq (site ++ fixWsPath) s = true
  · rw [if_pos h1] at h; simp at h
  · by_cases h2 : swG lcEq (site ++ fixPath) s = true
    · rw [if_neg h1, if_pos h2] at h; simp at h
    · exact ⟨Bool.eq_false_iff.mpr h1, Bool.eq_false_iff.mpr h2⟩

theorem matchLen_none_of_parts {site s : List Char}
    (h1 : swG lcEq (site ++ fixWsPath) s = false)
    (h2 : swG lcEq (site ++ fixPath) s = false) : matchLen site s = none := by
  unfold matchLen
  rw [if_neg (by rw [h1]; exact Bool.false_ne_true), if_neg (by rw [h2]; exact Bool.false_ne_true)]

/-- A position whose first character is outside the URL class cannot start a
match (the site literal consists of URL characters). -/
theorem matchLen_none_of_head_bad {site : List Char} (hsne : site ≠ [])
    (hsiteChars : ∀ c ∈ site, urlCharB c = true) {d : Char}
    (hd : urlCharB d = false) (xs : List Char) : matchLen site (d :: xs) = none := by
  cases site with
  | nil => exact absurd rfl hsne
  | cons s0 sr =>
    have hs0 : urlCharB s0 = true := hsiteChars s0 (List.mem_cons_self _ _)
    have hfail : ∀ tail : List Char, swG lcEq ((s0 :: sr) ++ tail) (d :: xs) = false := by
      intro tail
      simp only [List.cons_append, swG]
      cases hl : lcEq s0 d with
      | false => rfl
      | true =>
        exfalso
        have := lcEq_urlChar hl
        rw [hs0, hd] at this
        exact Bool.false_ne_true this.symm
    exact matchLen_none_of_parts (hfail fixWsPath) (hfail fixPath)

/-- The scan maps an empty-or-bad-headed suffix to an empty-or-bad-headed
suffix. -/
theorem scan_keeps_bad_head {site : List Char} (token : List Char) (hsne : site ≠ [])
    (hsiteChars : ∀ c ∈ site, urlCharB c = true) {rest : List Char}
    (h : rest = [] ∨ ∃ d ds, rest = d :: ds ∧ urlCharB d = false) :
    rewriteScan site token rest = [] ∨
      ∃ d ds, rewriteScan site token rest = d :: ds ∧ urlCharB d = false := by
  rcases h with rfl | ⟨d, ds, rfl, hd⟩
  · exact Or.inl (rewriteScan_nil site token)
  · rw [rewriteScan_cons_none token (matchLen_none_of_head_bad hsne hsiteChars hd ds)]
    exact Or.inr ⟨d, _, rfl, hd⟩

theorem swG_cons2 {eqf : Char → Char → Bool} {a b : Char} {ps s : List Char}
    (h : swG eqf (a :: b :: ps) s = true) :
    ∃ x y rest, s = x :: y :: rest ∧ eqf a x = true ∧ eqf b y = true := by
  cases s with
  | nil => simp [swG] at h
  | cons x s' =>
    cases s' with
    | nil => simp [swG] at h
    | cons y rest =>
      simp only [swG, Bool.and_eq_true] at h
      exact ⟨x, y, rest, rfl, h.1, h.2.1⟩

theorem fixWsPath_cons : fixWsPath = '/' :: 'w' :: ("ebservice/pluginfile.php/").toList := by
  decide

theorem fixPath_cons : fixPath = '/' :: 'p' :: ("luginfile.php/").toList := by
  decide

/-- The two alternatives of the pattern cannot both match at one position
(`w` vs `p` right after `site/`), so the alternative taken is determined by
the text. -/
theorem swG_ws_p_conflict {site X : List Char}
    (h1 : swG lcEq (site ++ fixWsPath) X = true)
    (h2 : swG lcEq (site ++ fixPath) X = true) : False := by
  rw [swG_append_pattern] at h1 h2
  have hw := (Bool.and_eq_true _ _).mp h1 |>.2
  have hp := (Bool.and_eq_true _ _).mp h2 |>.2
  rw [fixWsPath_cons] at hw
  rw [fixPath_cons] at hp
  obtain ⟨x, y, r1, he1, -, hwy⟩ := swG_cons2 hw
  obtain ⟨x', y', r2, he2, -, hpy⟩ := swG_cons2 hp
  rw [he1] at he2
  injection he2 with hx he2
  injection he2 with hy _
  exact lcEq_pw (hy ▸ hpy) hwy

/-- Recomputing the greedy run after the matched prefix, when URL-class
material (`mid`) is appended to it and the rest of the text keeps a
non-URL-class head. -/
theorem urlRun_after_take {s0 mid T' : List Char} {base n : Nat}
    (hb : base ≤ n) (hn : n ≤ s0.length)
    (hrun : n = base + urlRun (s0.drop base))
    (hmid : ∀ c ∈ mid, urlCharB c = true)
    (hT' : T' = [] ∨ ∃ d ds, T' = d :: ds ∧ urlCharB d = false) :
    base + urlRun ((s0.take n ++ (mid ++ T')).drop base) = n + mid.length := by
  have hlen : (s0.take n).length = n := by
    rw [List.length_take]
    omega
  have h1 : (s0.take n ++ (mid ++ T')).drop base = (s0.take n).drop base ++ (mid ++ T') := by
    rw [List.drop_append_eq_append_drop, hlen, Nat.sub_eq_zero_of_le hb, List.drop_zero]
  have h2 : (s0.take n).drop base = (s0.drop base).take (n - base) := by
    rw [List.drop_take]
  have hr : n - base = urlRun (s0.drop base) := by omega
  rw [h1, h2, hr, ← List.append_assoc, urlRun_full]
  · rw [List.length_append, List.length_take]
    have := urlRun_le (s0.drop base)
    omega
  · intro c hc
    rcases List.mem_append.mp hc with hc | hc
    · exact urlRun_chars (s0.drop base) c hc
    · exact hmid c hc
  · exact hT'

/-- A match found in the original text is still found — with the same
alternative and with length extended by exactly `mid` — after `mid`
(URL-class characters) is inserted at its end and the following text is
replaced by any suffix with a non-URL-class head. -/
theorem matchLen_recompute {site s0 : List Char} {n : Nat}
    (hm : matchLen site s0 = some n) {mid T' : List Char}
    (hmid : ∀ c ∈ mid, urlCharB c = true)
    (hT' : T' = [] ∨ ∃ d ds, T' = d :: ds ∧ urlCharB d = false) :
    matchLen site (s0.take n ++ (mid ++ T')) = some (n + mid.length) := by
  have hnle := matchLen_le hm
  rcases matchLen_some_cases hm with ⟨hsw, hneq⟩ | ⟨hsw1, hsw, hneq⟩
  · have hble : (site ++ fixWsPath).length ≤ n := by omega
    have hsw' : swG lcEq (site ++ fixWsPath) (s0.take n ++ (mid ++ T')) = true :=
      swG_append_right (swG_take hsw hble) _
    unfold matchLen
    rw [if_pos hsw']
    rw [urlRun_after_take hble hnle hneq hmid hT']
  · have hble : (site ++ fixPath).length ≤ n := by omega
    have hsw2' : swG lcEq (site ++ fixPath) (s0.take n ++ (mid ++ T')) = true :=
      swG_append_right (swG_take hsw hble) _
    have hns : swG lcEq (site ++ fixWsPath) (s0.take n ++ (mid ++ T')) = false := by
      cases h : swG lcEq (site ++ fixWsPath) (s0.take n ++ (mid ++ T')) with
      | false => rfl
      | true => exact (swG_ws_p_conflict h hsw2').elim
    unfold matchLen
    rw [if_neg (by rw [hns]; exact Bool.false_ne_true), if_pos hsw2']
    rw [urlRun_after_take hble hnle hneq hmid hT']

/-- Scan fixed points: a string made of non-match positions and full-match
blocks that already carry `token=`. -/
inductive Shaped (site token : List Char) : List Char → Prop
  | nil : Shaped site token []
  | copy (c : Char) (t : List Char) : matchLen site (c :: t) = none →
      Shaped site token t → Shaped site token (c :: t)
  | block (u t : List Char) : u ≠ [] → matchLen site (u ++ t) = some u.length →
      hasSubG ceq u tokEq = true → Shaped site token t → Shaped site token (u ++ t)

theorem scan_fixes_Shaped {site token t : List Char} (h : Shaped site token t) :
    rewriteScan site token t = t := by
  induction h with
  | nil => exact rewriteScan_nil site token
  | copy c t hm _ ih => rw [rewriteScan_cons_none token hm, ih]
  | block u t hne hm hhas _ ih =>
    cases u with
    | nil => exact absurd rfl hne
    | cons u0 u' =>
      have hm' : matchLen site (u0 :: (u' ++ t)) = some (u0 :: u').length := hm
      show rewriteScan site token (u0 :: (u' ++ t)) = (u0 :: u') ++ t
      rw [rewriteScan_cons_some token hm']
      have htake : (u0 :: (u' ++ t)).take (u0 :: u').length = u0 :: u' := by
        have := List.take_left (u0 :: u') t
        exact this
      have hdrop : (u0 :: (u' ++ t)).drop (u0 :: u').length = t := by
        have := List.drop_left (u0 :: u') t
        exact this
      rw [htake, hdrop, processUrl, if_pos hhas, ih]

/-- A pattern free of `?`/`&` (case-insensitively) matching after the scan
already matched before the scan: it cannot overlap an inserted
`?token=…`/`&token=…` segment. -/
theorem swG_scan_transfer (site token : List Char) {pat : List Char}
    (hpat : ∀ a ∈ pat, lcEq a '?' = false ∧ lcEq a '&' = false) {cs : List Char}
    (h : swG lcEq pat (rewriteScan site token cs) = true) : swG lcEq pat cs = true := by
  refine rel_swG (C := fun a => lcEq a '?' = false ∧ lcEq a '&' = false) ?_
    (R_scan site token cs) hpat h
  rintro orig seg ⟨-, sep, hsep, rfl⟩
  refine ⟨sep, _, rfl, ?_⟩
  intro a ha
  rcases hsep with rfl | rfl
  · exact ha.1
  · exact ha.2

/-- A position that starts no match keeps starting no match after the scan
rewrites the rest of the text. -/
theorem matchLen_none_transfer {site : List Char} (token : List Char)
    (hsite : ∀ c ∈ site, c ≠ '?' ∧ c ≠ '&') {c : Char} {cs : List Char}
    (hm : matchLen site (c :: cs) = none) :
    matchLen site (c :: rewriteScan site token cs) = none := by
  obtain ⟨h1, h2⟩ := matchLen_none_parts hm
  have hsite' : ∀ a ∈ site, lcEq a '?' = false ∧ lcEq a '&' = false := by
    intro a ha
    constructor
    · cases h : lcEq a '?' with
      | false => rfl
      | true => exact absurd (lcEq_quest h) (hsite a ha).1
    · cases h : lcEq a '&' with
      | false => rfl
      | true => exact absurd (lcEq_amp h) (hsite a ha).2
  have key : ∀ (p0 : Char) (prest : List Char),
      (∀ a ∈ prest, lcEq a '?' = false ∧ lcEq a '&' = false) →
      swG lcEq (p0 :: prest) (c :: cs) = false →
      swG lcEq (p0 :: prest) (c :: rewriteScan site token cs) = false := by
    intro p0 prest hchars hfail
    cases hnew : swG lcEq (p0 :: prest) (c :: rewriteScan site token cs) with
    | false => rfl
    | true =>
      exfalso
      simp only [swG, Bool.and_eq_true] at hnew
      have htr := swG_scan_transfer site token hchars hnew.2
      rw [swG, hnew.1, htr] at hfail
      simp at hfail
  have part : ∀ (tail : List Char), tail ≠ [] →
      (∀ a ∈ tail, lcEq a '?' = false ∧ lcEq a '&' = false) →
      swG lcEq (site ++ tail) (c :: cs) = false →
      swG lcEq (site ++ tail) (c :: rewriteScan site token cs) = false := by
    intro tail htne htail hfail
    have hall : ∀ a ∈ site ++ tail, lcEq a '?' = false ∧ lcEq a '&' = false := by
      intro a ha
      rcases List.mem_append.mp ha with h | h
      · exact hsite' a h
      · exact htail a h
    cases hp : site ++ tail with
    | nil => exact absurd (List.append_eq_nil.mp hp).2 htne
    | cons p0 prest =>
      rw [hp] at hfail
      exact key p0 prest
        (fun a ha => hall a (by rw [hp]; exact List.mem_cons_of_mem _ ha)) hfail
  exact matchLen_none_of_parts
    (part fixWsPath (by decide) (by decide) h1)
    (part fixPath (by decide) (by decide) h2)

/-- Every scan output is a scan fixed point: copied non-match positions stay
non-matches, and every rewritten (or skipped) URL becomes a full-match block
containing `token=`. -/
theorem scan_Shaped (site token : List Char) (hsne : site ≠ [])
    (hsite : ∀ c ∈ site, urlCharB c = true ∧ c ≠ '?' ∧ c ≠ '&')
    (htok : ∀ c ∈ token, urlCharB c = true) :
    ∀ (fuel : Nat) (s : List Char), s.length ≤ fuel →
      Shaped site token (rewriteScan site token s) := by
  have hsiteU : ∀ c ∈ site, urlCharB c = true := fun c hc => (hsite c hc).1
  have hsiteQA : ∀ c ∈ site, c ≠ '?' ∧ c ≠ '&' :=
    fun c hc => ⟨(hsite c hc).2.1, (hsite c hc).2.2⟩
  intro fuel
  induction fuel with
  | zero =>
    intro s hs
    have : s = [] := List.length_eq_zero.mp (Nat.le_zero.mp hs)
    subst this
    rw [rewriteScan_nil]
    exact Shaped.nil
  | succ f ih =>
    intro s hs
    cases s with
    | nil =>
      rw [rewriteScan_nil]
      exact Shaped.nil
    | cons c cs =>
      cases hm : matchLen site (c :: cs) with
      | none =>
        rw [rewriteScan_cons_none token hm]
        refine Shaped.copy c _ (matchLen_none_transfer token hsiteQA hm) (ih cs ?_)
        simp only [List.length_cons] at hs
        omega
      | some n =>
        have hpos := matchLen_pos hm
        have hnle := matchLen_le hm
        rw [rewriteScan_cons_some token hm]
        have hdd : ∀ (b r : Nat), n = b + r →
            (c :: cs).drop n = ((c :: cs).drop b).drop r := by
          intro b r h
          rw [h, List.drop_drop]
        have hrest : (c :: cs).drop n = [] ∨
            ∃ d ds, (c :: cs).drop n = d :: ds ∧ urlCharB d = false := by
          rcases matchLen_some_cases hm with ⟨hsw, hneq⟩ | ⟨-, hsw, hneq⟩
          · rw [hdd _ _ hneq]
            exact urlRun_stop _
          · rw [hdd _ _ hneq]
            exact urlRun_stop _
        have hT' := scan_keeps_bad_head token hsne hsiteU hrest
        have hcons_len : (c :: cs).length = cs.length + 1 := by simp
        have hs' : cs.length + 1 ≤ f + 1 := by rw [← hcons_len]; exact hs
        have hnle' : n ≤ cs.length + 1 := by rw [← hcons_len]; exact hnle
        have hlen_rest : ((c :: cs).drop n).length ≤ f := by
          simp only [List.length_drop, hcons_len]
          omega
        have hShT := ih _ hlen_rest
        have hulen : ((c :: cs).take n).length = n := by
          rw [List.length_take, hcons_len]
          omega
        have htake_ne : (c :: cs).take n ≠ [] := by
          cases n with
          | zero => exact absurd hpos (by omega)
          | succ m => simp [List.take_succ_cons]
        by_cases hhas : hasSubG ceq ((c :: cs).take n) tokEq = true
        · rw [processUrl, if_pos hhas]
          have hml := matchLen_recompute hm
            (show ∀ c ∈ ([] : List Char), urlCharB c = true by simp) hT'
          rw [List.nil_append] at hml
          refine Shaped.block _ _ htake_ne ?_ hhas hShT
          rw [hulen]
          simpa using hml
        · rw [processUrl, if_neg hhas]
          have hmid : ∀ x ∈ (if ((c :: cs).take n).contains '?' then '&' else '?') ::
              (tokEq ++ token), urlCharB x = true := by
            intro x hx
            rcases List.mem_cons.mp hx with rfl | hx
            · split <;> decide
            · rcases List.mem_append.mp hx with hx | hx
              · exact (by decide : ∀ y ∈ tokEq, urlCharB y = true) x hx
              · exact htok x hx
          have hml := matchLen_recompute hm hmid hT'
          have hhasu : hasSubG ceq ((c :: cs).take n ++
              ((if ((c :: cs).take n).contains '?' then '&' else '?') ::
                (tokEq ++ token))) tokEq = true := by
            have h0 : hasSubG ceq (tokEq ++ token) tokEq = true :=
              hasSubG_of_swG (swG_self_append ceq ceq_refl tokEq token)
            have h1 : hasSubG ceq ((if ((c :: cs).take n).contains '?' then '&' else '?') ::
                (tokEq ++ token)) tokEq = true := by
              rw [hasSubG, h0, Bool.or_true]
            exact hasSubG_append_left h1 _
          refine Shaped.block _ _ (by simp) ?_ hhasu hShT
          rw [List.append_assoc, hml, List.length_append, hulen]

theorem scan_idem {site token : List Char} (hsne : site ≠ [])
    (hsite : ∀ c ∈ site, urlCharB c = true ∧ c ≠ '?' ∧ c ≠ '&')
    (htok : ∀ c ∈ token, urlCharB c = true) (s : List Char) :
    rewriteScan site token (rewriteScan site token s) = rewriteScan site token s :=
  scan_fixes_Shaped (scan_Shaped site token hsne hsite htok s.length s (le_refl _))

theorem rewriteScan_ne_nil (site token : List Char) {s : List Char} (h : s ≠ []) :
    rewriteScan site token s ≠ [] := by
  cases s with
  | nil => exact absurd rfl h
  | cons c cs =>
    cases hm : matchLen site (c :: cs) with
    | none =>
      rw [rewriteScan_cons_none token hm]
      exact List.cons_ne_nil _ _
    | some n =>
      rw [rewriteScan_cons_some token hm]
      have hpos := matchLen_pos hm
      cases n with
      | zero => exact absurd hpos (by omega)
      | succ m =>
        rw [List.take_succ_cons, processUrl]
        split <;> simp

theorem replaceMagic_ne_nil {repl s : List Char} (hr : repl ≠ []) (h : s ≠ []) :
    replaceMagic repl s ≠ [] := by
  cases s with
  | nil => exact absurd rfl h
  | cons c cs =>
    by_cases hm : swG ceq magicPh (c :: cs) = true
    · rw [replaceMagic_cons_pos hm]
      cases repl with
      | nil => exact absurd rfl hr
      | cons d dr => simp
    · rw [replaceMagic_cons_neg hm]
      exact List.cons_ne_nil _ _

theorem toList_mk (l : List Char) : (String.mk l).toList = l := rfl

theorem mk_ne_empty {l : List Char} (h : l ≠ []) : String.mk l ≠ "" := by
  intro he
  apply h
  have hdata := congrArg String.toList he
  rw [toList_mk] at hdata
  exact hdata

theorem toList_ne_nil {s : String} (h : s ≠ "") : s.toList ≠ [] := by
  intro hl
  apply h
  cases s with
  | mk data =>
    have hd : data = [] := hl
    subst hd
    rfl

theorem magicPh_chars : ∀ a ∈ magicPh, a = '@' ∨ (65 ≤ a.toNat ∧ a.toNat ≤ 90) := by
  decide

/-- The output of a full `rewritePluginfileUrls` pass contains no
`@@PLUGINFILE@@` occurrence (lowercase site without `@`, token without `@`). -/
theorem pass_no_magic {site token : List Char} (hsne : site ≠ [])
    (hsite : ∀ c ∈ site, urlCharB c = true ∧ c ≠ '?' ∧ c ≠ '&' ∧ c ≠ '@' ∧
      ¬(65 ≤ c.toNat ∧ c.toNat ≤ 90))
    (htok : ∀ c ∈ token, urlCharB c = true ∧ c ≠ '@') (html : List Char) :
    hasSubG ceq
      (rewriteScan site token
        (if hasSubG ceq html magicPh then
          replaceMagic (site ++ ("/webservice/pluginfile.php").toList) html
        else html)) magicPh = false := by
  have htok' : '@' ∉ token := fun hmem => (htok _ hmem).2 rfl
  by_cases hmag : hasSubG ceq html magicPh = true
  · rw [if_pos hmag]
    refine scan_no_magic htok' ?_
    refine replaceMagic_no_occ ?_ ?_ html.length html (le_refl _)
    · intro hmem
      rcases List.mem_append.mp hmem with hmem | hmem
      · exact (hsite _ hmem).2.2.2.1 rfl
      · exact (by decide : '@' ∉ ("/webservice/pluginfile.php").toList) hmem
    · cases site with
      | nil => exact absurd rfl hsne
      | cons s0 sr =>
        refine ⟨s0, sr ++ ("/webservice/pluginfile.php").toList, rfl, ?_⟩
        intro a ha
        simp only [ceq, decide_eq_false_iff_not]
        intro he
        have hmem : s0 ∈ s0 :: sr := List.mem_cons_self _ _
        rcases magicPh_chars a ha with h | h
        · exact (hsite s0 hmem).2.2.2.1 (by rw [← he, h])
        · exact (hsite s0 hmem).2.2.2.2 (he ▸ h)
  · rw [if_neg hmag]
    exact scan_no_magic htok' (Bool.eq_false_iff.mpr hmag)

/-- `rewritePluginfileUrls` is idempotent for a lowercase-URL-character site
(free of `?`, `&`, `@`) and a URL-character token free of `@`. -/
theorem rewritePluginfileUrls_idem (site token : String)
    (hne : site.toList ≠ [])
    (hsite : ∀ c ∈ site.toList, urlCharB c = true ∧ c ≠ '?' ∧ c ≠ '&' ∧ c ≠ '@' ∧
      ¬(65 ≤ c.toNat ∧ c.toNat ≤ 90))
    (htok : ∀ c ∈ token.toList, urlCharB c = true ∧ c ≠ '@') (html : String) :
    MoodleApiService.rewritePluginfileUrls site token
      (MoodleApiService.rewritePluginfileUrls site token html) =
    MoodleApiService.rewritePluginfileUrls site token html := by
  by_cases hh : html = "" ∨ site = "" ∨ token = ""
  · have h1 : MoodleApiService.rewritePluginfileUrls site token html = html := by
      rw [MoodleApiService.rewritePluginfileUrls, if_pos hh]
    rw [h1, h1]
  · push_neg at hh
    obtain ⟨hh1, hh2, hh3⟩ := hh
    have hfirst : MoodleApiService.rewritePluginfileUrls site token html =
        String.mk (rewriteScan site.toList token.toList
          (if hasSubG ceq html.toList magicPh then
            replaceMagic (site.toList ++ ("/webservice/pluginfile.php").toList) html.toList
          else html.toList)) := by
      rw [MoodleApiService.rewritePluginfileUrls, if_neg (by simp [hh1, hh2, hh3])]
    have hH1ne : (if hasSubG ceq html.toList magicPh then
        replaceMagic (site.toList ++ ("/webservice/pluginfile.php").toList) html.toList
      else html.toList) ≠ [] := by
      split
      · refine replaceMagic_ne_nil ?_ (toList_ne_nil hh1)
        cases hs : site.toList with
        | nil => exact absurd hs hne
        | cons s0 sr => simp
      · exact toList_ne_nil hh1
    have hscanne : rewriteScan site.toList token.toList
        (if hasSubG ceq html.toList magicPh then
          replaceMagic (site.toList ++ ("/webservice/pluginfile.php").toList) html.toList
        else html.toList) ≠ [] := rewriteScan_ne_nil _ _ hH1ne
    have hnomagic := pass_no_magic hne hsite htok html.toList
    rw [hfirst, MoodleApiService.rewritePluginfileUrls,
      if_neg (fun hor => hor.elim (mk_ne_empty hscanne) (fun h2 => h2.elim hh2 hh3)),
      toList_mk, if_neg (by rw [hnomagic]; exact Bool.false_ne_true)]
    exact congrArg String.mk
      (scan_idem hne (fun c hc => ⟨(hsite c hc).1, (hsite c hc).2.1, (hsite c hc).2.2.1⟩)
        (fun c hc => (htok c hc).1) _)

theorem contains_iff_mem {l : List Char} {a : Char} : l.contains a = true ↔ a ∈ l := by
  first
  | exact List.contains_iff
  | simp [List.contains_eq_mem]
  | simp [List.elem_iff]

/-- C2 counterexample: `getFileUrl` performs no `token=`-presence check, so
it is not idempotent — applying it twice to a same-origin URL appends the
token query parameter twice, violating "must not double-append a token when
one is already present". -/
theorem getFileUrl_double_append :
    MoodleApiService.getFileUrl "https://moodle.example" "tok"
      (MoodleApiService.getFileUrl "https://moodle.example" "tok"
        "https://moodle.example/f.png") ≠
    MoodleApiService.getFileUrl "https://moodle.example" "tok"
      "https://moodle.example/f.png" := by
  decide

/-- C2 (amended): of the two Gateway URL transforms, only
`rewritePluginfileUrls` is idempotent — its callback skips URLs already
containing `token=` — shown here for any site URL of lowercase URL-class
characters free of `?`, `&`, `@` and any token of URL-class characters free
of `@`, and for every HTML input.  `getFileUrl` checks only the origin, not
token presence: applied to its own same-origin output it appends a second
`&token=…`, so it is not idempotent and does double-append. -/
theorem url_transform_idempotence_amended (site token : String)
    (hne : site.toList ≠ [])
    (hsite : ∀ c ∈ site.toList, urlCharB c = true ∧ c ≠ '?' ∧ c ≠ '&' ∧ c ≠ '@' ∧
      ¬(65 ≤ c.toNat ∧ c.toNat ≤ 90))
    (htok : ∀ c ∈ token.toList, urlCharB c = true ∧ c ≠ '@') :
    (∀ html : String,
      MoodleApiService.rewritePluginfileUrls site token
        (MoodleApiService.rewritePluginfileUrls site token html) =
      MoodleApiService.rewritePluginfileUrls site token html) ∧
    (∀ fileUrl : String, fileUrl ≠ "" →
      urlOrigin fileUrl.toList = urlOrigin site.toList →
      (urlOrigin fileUrl.toList).isSome = true →
      urlOrigin (MoodleApiService.getFileUrl site token fileUrl).toList =
        urlOrigin fileUrl.toList →
      MoodleApiService.getFileUrl site token
        (MoodleApiService.getFileUrl site token fileUrl) =
      String.mk (fileUrl.toList ++
        ((if fileUrl.toList.contains '?' then '&' else '?') :: (tokEq ++ token.toList)) ++
        ('&' :: (tokEq ++ token.toList)))) := by
  refine ⟨rewritePluginfileUrls_idem site token hne hsite htok, ?_⟩
  intro fileUrl hfne horig hsome hstable
  obtain ⟨o, ho⟩ := Option.isSome_iff_exists.mp hsome
  have hsiteo : urlOrigin site.toList = some o := by rw [← horig, ho]
  have h1 : MoodleApiService.getFileUrl site token fileUrl =
      String.mk (fileUrl.toList ++
        ((if fileUrl.toList.contains '?' then '&' else '?') :: (tokEq ++ token.toList))) := by
    rw [MoodleApiService.getFileUrl, if_neg hfne, ho, hsiteo]
    show (if o ≠ o then fileUrl else _) = _
    rw [if_neg (fun h => h rfl)]
  have hXne : fileUrl.toList ++
      ((if fileUrl.toList.contains '?' then '&' else '?') :: (tokEq ++ token.toList)) ≠ [] := by
    simp
  have hgorig : urlOrigin (fileUrl.toList ++
      ((if fileUrl.toList.contains '?' then '&' else '?') :: (tokEq ++ token.toList))) =
      some o := by
    have hst := hstable
    rw [h1, toList_mk] at hst
    rw [hst, ho]
  have hq : (fileUrl.toList ++
      ((if fileUrl.toList.contains '?' then '&' else '?') ::
        (tokEq ++ token.toList))).contains '?' = true := by
    rw [contains_iff_mem]
    cases hc : fileUrl.toList.contains '?' with
    | true => exact List.mem_append.mpr (Or.inl (contains_iff_mem.mp hc))
    | false =>
      refine List.mem_append.mpr (Or.inr ?_)
      simp
  rw [h1, MoodleApiService.getFileUrl, if_neg (mk_ne_empty hXne), toList_mk, hgorig, hsiteo]
  show (if o ≠ o then _ else _) = _
  rw [if_neg (fun h => h rfl), toList_mk]
  have hq2 : (fileUrl.data ++
      ((if fileUrl.data.contains '?' = true then '&' else '?') ::
        (tokEq ++ token.toList))).contains '?' = true := hq
  rw [if_pos hq2]

/-- Witness for C2 at the production-shaped site `https://moodle.example`
with token `tok`: repeated HTML rewriting is a no-op, and `getFileUrl`
applied to its own output appends a second `&token=tok`. -/
theorem url_transform_idempotence_amended_witness :
    MoodleApiService.rewritePluginfileUrls "https://moodle.example" "tok"
      (MoodleApiService.rewritePluginfileUrls "https://moodle.example" "tok"
        "<p><img src=\"https://moodle.example/webservice/pluginfile.php/2/img.png\"></p>") =
    MoodleApiService.rewritePluginfileUrls "https://moodle.example" "tok"
      "<p><img src=\"https://moodle.example/webservice/pluginfile.php/2/img.png\"></p>" ∧
    MoodleApiService.getFileUrl "https://moodle.example" "tok"
      (MoodleApiService.getFileUrl "https://moodle.example" "tok"
        "https://moodle.example/pluginfile.php/5/f.pdf") =
    String.mk (("https://moodle.example/pluginfile.php/5/f.pdf").toList ++
      ((if ("https://moodle.example/pluginfile.php/5/f.pdf").toList.contains '?' then '&'
        else '?') :: (tokEq ++ ("tok").toList)) ++
      ('&' :: (tokEq ++ ("tok").toList))) :=
  ⟨(url_transform_idempotence_amended "https://moodle.example" "tok" (by decide) (by decide)
      (by decide)).1 _,
   (url_transform_idempotence_amended "https://moodle.example" "tok" (by decide) (by decide)
      (by decide)).2 "https://moodle.example/pluginfile.php/5/f.pdf" (by decide) (by decide)
      (by decide) (by decide)⟩
